import Mathlib

/-!
Shallow embedding of the graph-based learning-gap analyzer of
backend/queryHandling/static/graph/real_graph_analyzer.py (class
RealGraphLearningAnalyzer), together with proofs settling the spec
claims about it.

Modelling conventions:
* The JSON snapshot (graph_data.json) becomes a node list and an edge
  list in file order, which is also the insertion order into the
  networkx DiGraph.
* networkx weighted shortest paths (Dijkstra over the strictly positive
  weights produced by get_edge_weight) are modelled as the minimum-weight
  simple path, enumerated by a fuel-bounded depth-first search; with
  strictly positive weights the minimum over simple paths is the Dijkstra
  distance.
* Python float weights are exact multiples of 1/10 here; internally the
  search carries them as integer numbers of tenths (so that everything
  kernel-evaluates), and the lemma getEdgeWeight_eq_tenths ties the
  integer table to the rational-valued weight function read off the
  source. Returned distances are rationals, built at the boundary.
* Exceptions are modelled with Except: networkx NodeNotFound (raised by
  shortest_path when an endpoint is absent) and NetworkXError (raised by
  graph.predecessors on an absent node) become the error case, while
  NetworkXNoPath is caught by the source and never escapes.
* The DBSCAN labelling (sklearn, an external library) enters as an
  arbitrary assignment of integer labels to topics, and the cluster
  table of the analyzer as an arbitrary association list, since only the
  grouping loop around DBSCAN is code of this repository.
-/

namespace RealGraphAnalyzer

/-- A node record of graph_data.json. The id and name fields are read by
direct indexing in the source, the type field through dict.get (so it may
be absent). -/
structure NodeData where
  id : String
  name : String
  ntype : Option String
deriving DecidableEq, Repr

/-- An edge record of graph_data.json; the type field is read through
dict.get with a default at each use site, so it may be absent. -/
structure GEdge where
  source : String
  target : String
  etype : Option String
deriving DecidableEq, Repr

/-- The loaded graph: node and edge lists of the snapshot in file order. -/
structure Graph where
  nodes : List NodeData
  edges : List GEdge
deriving DecidableEq, Repr

/-- get_edge_weight: dictionary lookup on the relationship type with
default 1.0 (both through the explicit default entry and through the
dict.get fallback). -/
def getEdgeWeight (edgeType : String) : ℚ :=
  if edgeType = "prerequisite" then 1/10
  else if edgeType = "sequence" then 2/10
  else if edgeType = "contains" then 3/10
  else if edgeType = "leads_to" then 5/10
  else if edgeType = "related" then 8/10
  else if edgeType = "default" then 1
  else 1

/-- The same weight table in integer tenths, used internally so that the
search kernel-evaluates; getEdgeWeight_eq_tenths ties the two together. -/
def getEdgeWeightT (edgeType : String) : ℕ :=
  if edgeType = "prerequisite" then 1
  else if edgeType = "sequence" then 2
  else if edgeType = "contains" then 3
  else if edgeType = "leads_to" then 5
  else if edgeType = "related" then 8
  else if edgeType = "default" then 10
  else 10

/-- Ids of the declared nodes. -/
def nodeIds (g : Graph) : List String := g.nodes.map (·.id)

/-- The node set of the built DiGraph: declared nodes plus the endpoints
auto-added by add_edge. -/
def nodeSet (g : Graph) : List String :=
  nodeIds g ++ g.edges.map (·.source) ++ g.edges.map (·.target)

/-- Order-preserving dedup keeping first occurrences, matching the
iteration order of networkx adjacency dictionaries. -/
def dedupKeepFirst (l : List String) : List String :=
  l.foldl (fun acc x => if x ∈ acc then acc else acc ++ [x]) []

/-- graph.predecessors: sources of in-edges in first-insertion order. -/
def preds (g : Graph) (v : String) : List String :=
  dedupKeepFirst ((g.edges.filter (fun e => e.target == v)).map (·.source))

/-- graph.successors: targets of out-edges in first-insertion order. -/
def succs (g : Graph) (v : String) : List String :=
  dedupKeepFirst ((g.edges.filter (fun e => e.source == v)).map (·.target))

/-- graph.get_edge_data u v: the attributes of edge u -> v; when the
snapshot repeats a pair the last add_edge wins. -/
def edgeData (g : Graph) (u v : String) : Option GEdge :=
  (g.edges.filter (fun e => e.source == u && e.target == v)).getLast?

/-- The type attribute of edge u -> v, when present. -/
def edgeTypeOf (g : Graph) (u v : String) : Option String :=
  (edgeData g u v).bind (·.etype)

/-- graph.nodes v followed by dict.get of the type attribute; nodes that
were only auto-added as edge endpoints carry no attributes. -/
def nodeTypeOf (g : Graph) (v : String) : Option String :=
  ((g.nodes.filter (fun n => n.id == v)).getLast?).bind (·.ntype)

/-- The weight stored on edge u -> v at build time, in tenths:
get_edge_weight applied to edge.get of type with default. -/
def builtWeightT (g : Graph) (u v : String) : ℕ :=
  match edgeData g u v with
  | some e => getEdgeWeightT (e.etype.getD "default")
  | none => 0

/-- Total weight of a vertex sequence, in tenths. -/
def pathWeightT (g : Graph) : List String → ℕ
  | a :: b :: rest => builtWeightT g a b + pathWeightT g (b :: rest)
  | _ => 0

/-- All simple paths from s to t over out-edges (fuel-bounded DFS). With
the strictly positive edge weights the minimum over these is the
weighted shortest-path distance that networkx Dijkstra computes. -/
def simplePaths (g : Graph) : ℕ → String → String → List String → List (List String)
  | 0, _, _, _ => []
  | fuel + 1, s, t, visited =>
    if s == t then [[t]]
    else
      ((succs g s).filter (fun n => !((s :: visited).contains n))).flatMap
        (fun n => (simplePaths g fuel n t (s :: visited)).map (fun p => s :: p))

/-- nx.shortest_path together with nx.shortest_path_length from s to t:
the first minimum-weight simple path and its weight in tenths; none
models NetworkXNoPath. -/
def minPath (g : Graph) (s t : String) : Option (List String × ℕ) :=
  (simplePaths g (g.edges.length + 2) s t []).foldl
    (fun acc p =>
      match acc with
      | none => some (p, pathWeightT g p)
      | some (q, w) => if pathWeightT g p < w then some (p, pathWeightT g p) else some (q, w))
    none

/-- get_distance_to_target: weighted distance in tenths; none models the
infinite distance returned when NetworkXNoPath is caught. -/
def distToTarget (g : Graph) (n target : String) : Option ℕ :=
  (minPath g n target).map (·.2)

/-- The dictionary returned by find_optimal_learning_path: the distance
key is absent in the already-completed branch, hence an Option. -/
structure PathResult where
  path : List String
  distance : Option ℚ
  reason : String
deriving DecidableEq, Repr

/-- Method 1 of find_optimal_learning_path: fold over the completed
topics keeping the strictly best (path minus its start, distance);
NetworkXNoPath is caught and skipped, while an absent endpoint raises
NodeNotFound, which the source does not catch. -/
def directLoop (g : Graph) (target : String) :
    List String → Option (List String × ℕ) → Except Unit (Option (List String × ℕ))
  | [], best => .ok best
  | c :: cs, best =>
    if c ∈ nodeSet g ∧ target ∈ nodeSet g then
      match minPath g c target with
      | none => directLoop g target cs best
      | some (p, d) =>
        match best with
        | none => directLoop g target cs (some (p.drop 1, d))
        | some (bp, bd) =>
          if d < bd then directLoop g target cs (some (p.drop 1, d))
          else directLoop g target cs (some (bp, bd))
    else .error ()

/-- One pass over graph.predecessors in find_missing_prerequisites: a
predecessor over a prerequisite or sequence edge that is not completed
is appended to missing (only if new) and always appended to the queue. -/
def collectPreds (g : Graph) (completed : List String) (current : String) :
    List String → List String × List String → List String × List String
  | [], acc => acc
  | p :: ps, (missing, queue) =>
    if ((edgeTypeOf g p current).getD "" == "prerequisite"
          || (edgeTypeOf g p current).getD "" == "sequence")
        && !(completed.contains p) then
      collectPreds g completed current ps
        ((if p ∈ missing then missing else missing ++ [p]), queue ++ [p])
    else
      collectPreds g completed current ps (missing, queue)

/-- The backward breadth-first traversal of find_missing_prerequisites.
Popping an unvisited node that is not in the graph models the
NetworkXError raised by graph.predecessors. The fuel bound exceeds the
greatest possible number of queue insertions. -/
def findMissingAux (g : Graph) (completed : List String) :
    ℕ → List String → List String → List String → Except Unit (List String)
  | 0, _, _, missing => .ok missing
  | fuel + 1, queue, visited, missing =>
    match queue with
    | [] => .ok missing
    | current :: rest =>
      if current ∈ visited then findMissingAux g completed fuel rest visited missing
      else if current ∈ nodeSet g then
        let mq := collectPreds g completed current (preds g current) (missing, rest)
        findMissingAux g completed fuel mq.2 (visited ++ [current]) mq.1
      else .error ()

/-- Comparison used to sort missing prerequisites by forward weighted
distance to the target; none (no path, infinite) sorts last. -/
def distLEb (a b : Option ℕ) : Bool :=
  match a, b with
  | _, none => true
  | none, some _ => false
  | some x, some y => x ≤ y

/-- Stable insertion of a into an ascending list: a goes before the
first element not strictly smaller. -/
def insertLE {α : Type} (le : α → α → Bool) (a : α) : List α → List α
  | [] => [a]
  | b :: l => if le a b then a :: b :: l else b :: insertLE le a l

/-- Stable sort (insertion sort); extensionally equal to the stable
list.sort of Python for any total preorder given by a key. -/
def sortLE {α : Type} (le : α → α → Bool) : List α → List α
  | [] => []
  | a :: l => insertLE le a (sortLE le l)

/-- find_missing_prerequisites: backward BFS from the target, then a
stable sort by forward weighted distance to the target. -/
def findMissingPrereqs (g : Graph) (completed : List String) (target : String) :
    Except Unit (List String) := do
  let missing ← findMissingAux g completed (g.edges.length + 2) [target] completed []
  return sortLE (fun a b => distLEb (distToTarget g a target) (distToTarget g b target)) missing

/-- get_topic_complexity: subtopic successors plus twice the prerequisite
predecessors. -/
def getTopicComplexity (g : Graph) (topicId : String) : ℕ :=
  ((succs g topicId).filter (fun n => nodeTypeOf g n == some "subtopic")).length
    + 2 * ((preds g topicId).filter (fun n => edgeTypeOf g n topicId == some "prerequisite")).length

/-- find_cluster_based_path over the cluster table self.clusters: the
first cluster holding the target, minus completed topics and the target,
stably sorted by complexity, first three kept. -/
def findClusterBasedPath (g : Graph) (clusters : List (ℤ × List String))
    (completed : List String) (target : String) : List String :=
  match clusters.find? (fun c => c.2.contains target) with
  | none => []
  | some c =>
    (sortLE (fun a b => getTopicComplexity g a ≤ getTopicComplexity g b)
      (c.2.filter (fun t => !(completed.contains t) && t != target))).take 3

/-- Methods 2 and 3 of find_optimal_learning_path, reached when no
direct path was found. -/
def fallbackPath (g : Graph) (clusters : List (ℤ × List String))
    (completed : List String) (target : String) : Except Unit PathResult := do
  let missing ← findMissingPrereqs g completed target
  if missing ≠ [] then
    return ⟨missing, some (missing.length : ℚ), "prerequisite_chain"⟩
  else
    let cp := findClusterBasedPath g clusters completed target
    return ⟨cp, some (cp.length : ℚ), "cluster_based"⟩

/-- find_optimal_learning_path. The truthiness test on best_path in the
source accepts neither None nor the empty list; the stored direct-path
distance is the weighted distance (tenths over ten). -/
def findOptimalPathE (g : Graph) (clusters : List (ℤ × List String))
    (completed : List String) (target : String) : Except Unit PathResult :=
  if target ∈ completed then .ok ⟨[], none, "already_completed"⟩
  else
    match directLoop g target completed none with
    | .error e => .error e
    | .ok best =>
      match best with
      | some (bp, bd) =>
        if bp = [] then fallbackPath g clusters completed target
        else .ok ⟨bp, some ((bd : ℚ) / 10), "direct_path"⟩
      | none => fallbackPath g clusters completed target

/-- get_all_subtopics_for_topic: successors that are subtopic nodes and
are linked by a contains edge. -/
def getAllSubtopicsForTopic (g : Graph) (topicId : String) : List String :=
  (succs g topicId).filter
    (fun s => nodeTypeOf g s == some "subtopic" && edgeTypeOf g topicId s == some "contains")

/-- The fields of the dictionary returned by analyze_subtopic_learning_gaps
that the claims exercise (the priority-annotated copy of the missing list
is only printed by the source, the returned list is unsorted). -/
structure SubtopicGapResult where
  targetSubtopics : List String
  completedInTarget : List String
  missingInTarget : List String
  completionPercentage : ℚ
deriving DecidableEq, Repr

/-- analyze_subtopic_learning_gaps; indexing all_id_to_data with an
unknown target id raises KeyError in the source, modelled as the error
case. -/
def analyzeSubtopicGapsE (g : Graph) (completedSubtopics : List String)
    (targetTopicId : String) : Except Unit SubtopicGapResult :=
  if targetTopicId ∈ nodeIds g then
    let ts := getAllSubtopicsForTopic g targetTopicId
    let cit := completedSubtopics.filter (fun s => ts.contains s)
    let mit := ts.filter (fun s => !(completedSubtopics.contains s))
    .ok ⟨ts, cit, mit,
      if ts = [] then 0 else (cit.length : ℚ) / (ts.length : ℚ) * 100⟩
  else .error ()

/-- ASCII lowering of one character, the fragment of str.lower the data
exercises. -/
def charLower (c : Char) : Char :=
  if 65 ≤ c.toNat ∧ c.toNat ≤ 90 then Char.ofNat (c.toNat + 32) else c

/-- str.lower. -/
def pyLower (s : String) : String := ⟨s.toList.map charLower⟩

/-- str.strip: drop whitespace at both ends. -/
def pyStrip (s : String) : String :=
  ⟨((s.toList.dropWhile Char.isWhitespace).reverse.dropWhile Char.isWhitespace).reverse⟩

/-- Python dict insertion: overwrite the value of an existing key in
place, otherwise append at the end. -/
def insertAssoc (m : List (String × String)) (k v : String) : List (String × String) :=
  if m.any (fun p => p.1 == k) then
    m.map (fun p => if p.1 == k then (k, v) else p)
  else m ++ [(k, v)]

/-- The lowered-name-to-id dictionaries built in the constructor; merging
the topic and subtopic maps is the same as inserting topics first and
subtopics second. -/
def buildNameMap (ns : List NodeData) : List (String × String) :=
  ns.foldl (fun m n => insertAssoc m (pyLower n.name) n.id) []

/-- get_all_topics. -/
def topicsOf (g : Graph) : List NodeData :=
  g.nodes.filter (fun n => n.ntype == some "topic")

/-- get_all_subtopics. -/
def subtopicsOf (g : Graph) : List NodeData :=
  g.nodes.filter (fun n => n.ntype == some "subtopic")

/-- all_name_to_id. -/
def nameMap (g : Graph) : List (String × String) :=
  buildNameMap (topicsOf g ++ subtopicsOf g)

/-- Bool prefix test on character lists. -/
def isPrefixB : List Char → List Char → Bool
  | [], _ => true
  | _ :: _, [] => false
  | a :: as, b :: bs => a == b && isPrefixB as bs

/-- Bool infix test on character lists (the Python in operator on str). -/
def isInfixB (q s : List Char) : Bool :=
  match s with
  | [] => isPrefixB q []
  | _ :: rest => isPrefixB q s || isInfixB q rest

/-- The Python substring operator a in b. -/
def substrOf (a b : String) : Bool := isInfixB a.toList b.toList

/-- The partial-match list of find_node_by_name: stored name and query
each tested as a substring of the other, in map order. -/
def nameMatches (m : List (String × String)) (q : String) : List (String × String) :=
  m.filter (fun p => substrOf q p.1 || substrOf p.1 q)

/-- One step of the min scan: the candidate replaces the current best
only when its stored name is strictly shorter. -/
def minStep (acc : Option (String × String)) (p : String × String) :
    Option (String × String) :=
  match acc with
  | none => some p
  | some q => if p.1.length < q.1.length then some p else some q

/-- min over the matches keyed by length of the stored name; Python min
keeps the first element attaining the minimum. -/
def minByNameLen (ms : List (String × String)) : Option (String × String) :=
  ms.foldl minStep none

/-- find_node_by_name. -/
def findNodeByName (m : List (String × String)) (name : String) : Option String :=
  let q := pyStrip (pyLower name)
  match m.find? (fun p => p.1 == q) with
  | some p => some p.2
  | none =>
    match nameMatches m q with
    | [] => none
    | [p] => some p.2
    | ms => (minByNameLen ms).map (·.2)

/-- Appending one topic to its cluster bucket: the defaultdict-style
insertion of perform_intelligent_clustering, preserving first-appearance
order of cluster labels. -/
def addToCluster (cs : List (ℤ × List String)) (cid : ℤ) (t : String) :
    List (ℤ × List String) :=
  if cs.any (fun c => c.1 == cid) then
    cs.map (fun c => if c.1 == cid then (c.1, c.2 ++ [t]) else c)
  else cs ++ [(cid, [t])]

/-- The grouping loop of perform_intelligent_clustering over the DBSCAN
labels; the labelling itself is produced by sklearn (an external
collaborator) and enters as an arbitrary function on topic ids. -/
def performClustering (topicIds : List String) (labels : String → ℤ) :
    List (ℤ × List String) :=
  topicIds.foldl (fun cs t => addToCluster cs (labels t) t) []

/-- The id-resolution gate of analyze_learning_gap_with_real_graph:
completed names that do not resolve (or resolve to a falsy id) are
dropped with a warning, an unresolved target returns None before any
graph search is attempted; otherwise find_optimal_learning_path runs on
the resolved ids. The interactive subtopic selection of the source does
not feed the path computation and is omitted. -/
def resolveAndFindPath (g : Graph) (clusters : List (ℤ × List String))
    (completedNames : List String) (targetName : String) :
    Option (Except Unit PathResult) :=
  let m := nameMap g
  let ids := completedNames.filterMap
    (fun n => match findNodeByName m n with
      | some i => if i = "" then none else some i
      | none => none)
  match findNodeByName m targetName with
  | none => none
  | some tid => if tid = "" then none else some (findOptimalPathE g clusters ids tid)

/-! ### Concrete graphs used by witnesses and counterexamples -/

/-- The two-topic graph of the spec scenario: Array (t1) is a
prerequisite of Sorting (t2). -/
def G1 : Graph :=
  ⟨[⟨"t1", "Array", some "topic"⟩, ⟨"t2", "Sorting", some "topic"⟩],
   [⟨"t1", "t2", some "prerequisite"⟩]⟩

/-- A graph with a three-hop related chain x -> u -> v -> t and one
prerequisite p -> t. -/
def G2 : Graph :=
  ⟨[⟨"x", "X", some "topic"⟩, ⟨"u", "U", some "topic"⟩, ⟨"v", "V", some "topic"⟩,
    ⟨"t", "T", some "topic"⟩, ⟨"p", "P", some "topic"⟩],
   [⟨"x", "u", some "related"⟩, ⟨"u", "v", some "related"⟩, ⟨"v", "t", some "related"⟩,
    ⟨"p", "t", some "prerequisite"⟩]⟩

/-- A topic with two contained subtopics. -/
def G5 : Graph :=
  ⟨[⟨"t1", "Array", some "topic"⟩, ⟨"s1", "Traversal", some "subtopic"⟩,
    ⟨"s2", "Sorting", some "subtopic"⟩],
   [⟨"t1", "s1", some "contains"⟩, ⟨"t1", "s2", some "contains"⟩]⟩

/-- Two topics joined only by a related edge, so that both the direct
search (empty completed set) and the prerequisite search come up empty. -/
def G6 : Graph :=
  ⟨[⟨"t2", "Sorting", some "topic"⟩, ⟨"t3", "Lists", some "topic"⟩],
   [⟨"t3", "t2", some "related"⟩]⟩

/-- A cluster table putting both topics of G6 in one cluster. -/
def CL6 : List (ℤ × List String) := [(0, ["t2", "t3"])]

/-- Concrete graph exercising the name lookup: one topic and two
subtopics whose lowered names all contain the fragment arr. -/
def G9 : Graph :=
  ⟨[⟨"t1", "Array", some "topic"⟩, ⟨"t2", "Array Sorting", some "subtopic"⟩,
    ⟨"t3", "Sorted Array", some "subtopic"⟩], []⟩


/-! ### Lemmas about the stable insertion sort -/

theorem getEdgeWeight_eq_tenths (t : String) :
    getEdgeWeight t = (getEdgeWeightT t : ℚ) / 10 := by
  unfold getEdgeWeight getEdgeWeightT
  split_ifs <;> norm_num


theorem mem_insertLE {α : Type} (le : α → α → Bool) (a x : α) (l : List α) :
    x ∈ insertLE le a l ↔ x = a ∨ x ∈ l := by
  induction l with
  | nil => simp [insertLE]
  | cons b l ih =>
    by_cases h : le a b = true
    · simp [insertLE, h]
    · simp only [insertLE, h, if_neg, Bool.not_eq_true] at *
      simp [List.mem_cons, ih]
      tauto

theorem insertLE_perm {α : Type} (le : α → α → Bool) (a : α) (l : List α) :
    List.Perm (insertLE le a l) (a :: l) := by
  induction l with
  | nil => simp [insertLE]
  | cons b l ih =>
    by_cases h : le a b = true
    · simp [insertLE, h]
    · simp only [insertLE, h]
      simp only [Bool.not_eq_true] at h
      exact List.Perm.trans ((ih).cons b) (List.Perm.swap a b l)

theorem sortLE_perm {α : Type} (le : α → α → Bool) (l : List α) :
    List.Perm (sortLE le l) l := by
  induction l with
  | nil => simp [sortLE]
  | cons a l ih =>
    exact List.Perm.trans (insertLE_perm le a (sortLE le l)) (ih.cons a)

theorem mem_sortLE {α : Type} (le : α → α → Bool) (x : α) (l : List α) :
    x ∈ sortLE le l ↔ x ∈ l := (sortLE_perm le l).mem_iff

theorem sortLE_length {α : Type} (le : α → α → Bool) (l : List α) :
    (sortLE le l).length = l.length := (sortLE_perm le l).length_eq

theorem insertLE_sorted {α : Type} (le : α → α → Bool)
    (htot : ∀ x y, le x y || le y x)
    (htr : ∀ x y z, le x y = true → le y z = true → le x z = true) (a : α) (l : List α)
    (hl : l.Pairwise (fun x y => le x y = true)) :
    (insertLE le a l).Pairwise (fun x y => le x y = true) := by
  induction l with
  | nil => simp [insertLE]
  | cons b l ih =>
    rcases List.pairwise_cons.mp hl with ⟨hb, hl'⟩
    by_cases h : le a b = true
    · simp only [insertLE, h, if_true]
      refine List.pairwise_cons.mpr ⟨?_, hl⟩
      intro y hy
      rcases List.mem_cons.mp hy with rfl | hy
      · exact h
      · exact htr a b y h (hb y hy)
    · simp only [insertLE, h]
      refine List.pairwise_cons.mpr ⟨?_, ih hl'⟩
      intro y hy
      rcases (mem_insertLE le a y l).mp hy with h1 | hy
      · rw [h1]
        have hba := htot a b
        simp [h] at hba
        exact hba
      · exact hb y hy

theorem sortLE_sorted {α : Type} (le : α → α → Bool)
    (htot : ∀ x y, le x y || le y x)
    (htr : ∀ x y z, le x y = true → le y z = true → le x z = true) (l : List α) :
    (sortLE le l).Pairwise (fun x y => le x y = true) := by
  induction l with
  | nil => simp [sortLE]
  | cons a l ih => exact insertLE_sorted le htot htr a (sortLE le l) ih

theorem distLEb_total (a b : Option ℕ) : distLEb a b || distLEb b a := by
  cases a <;> cases b <;> simp [distLEb]
  all_goals omega

theorem distLEb_trans (a b c : Option ℕ) (h1 : distLEb a b = true) (h2 : distLEb b c = true) :
    distLEb a c = true := by
  cases a <;> cases b <;> cases c <;> simp_all [distLEb]
  all_goals omega

theorem dedupKeepFirst_sub_aux (l acc : List String) :
    ∀ x ∈ l.foldl (fun acc x => if x ∈ acc then acc else acc ++ [x]) acc,
      x ∈ acc ∨ x ∈ l := by
  induction l generalizing acc with
  | nil => intro x hx; exact Or.inl hx
  | cons a l ih =>
    intro x hx
    simp only [List.foldl_cons] at hx
    rcases ih _ x hx with hmem | hmem
    · by_cases ha : a ∈ acc
      · simp [ha] at hmem; exact Or.inl hmem
      · simp [ha, List.mem_append] at hmem
        rcases hmem with h | h
        · exact Or.inl h
        · exact Or.inr (by simp [h])
    · exact Or.inr (List.mem_cons_of_mem a hmem)

theorem dedupKeepFirst_nodup_aux (l : List String) :
    ∀ acc : List String, acc.Nodup →
      (l.foldl (fun acc x => if x ∈ acc then acc else acc ++ [x]) acc).Nodup := by
  induction l with
  | nil => intro acc h; exact h
  | cons a l ih =>
    intro acc h
    simp only [List.foldl_cons]
    by_cases ha : a ∈ acc
    · simp only [ha, if_true]; exact ih acc h
    · simp only [ha, if_false]
      exact ih _ (by simp [List.nodup_append, h, ha])

theorem dedupKeepFirst_nodup (l : List String) : (dedupKeepFirst l).Nodup :=
  dedupKeepFirst_nodup_aux l [] List.nodup_nil

theorem succs_nodup (g : Graph) (v : String) : (succs g v).Nodup :=
  dedupKeepFirst_nodup _

/-! ### C3 — the edge weighting table -/

/-- C3, counterexample: the claim says the weight of a related edge is
1.0, but get_edge_weight maps related to 0.8. -/
theorem c3_counterexample :
    getEdgeWeight "related" = 8/10 ∧ getEdgeWeight "related" ≠ 1 := by
  refine ⟨rfl, ?_⟩
  show ¬(8/10 : ℚ) = 1
  norm_num

/-- C3 (amended): get_edge_weight is a pure function of the edge type
returning prerequisite = 0.1, sequence = 0.2, contains = 0.3,
leads_to = 0.5, related = 0.8, and 1.0 for any absent or unrecognized
edge type (an absent type is looked up as the key default, which the
table also maps to 1.0). -/
theorem c3_edge_weight_table :
    getEdgeWeight "prerequisite" = 1/10 ∧
    getEdgeWeight "sequence" = 2/10 ∧
    getEdgeWeight "contains" = 3/10 ∧
    getEdgeWeight "leads_to" = 5/10 ∧
    getEdgeWeight "related" = 8/10 ∧
    getEdgeWeight "default" = 1 ∧
    (∀ t : String,
      t ∉ ["prerequisite", "sequence", "contains", "leads_to", "related"] →
      getEdgeWeight t = 1) := by
  refine ⟨rfl, rfl, rfl, rfl, rfl, rfl, ?_⟩
  intro t ht
  simp only [List.mem_cons, List.mem_singleton, not_or] at ht
  obtain ⟨h1, h2, h3, h4, h5, -⟩ := ht
  unfold getEdgeWeight
  rw [if_neg h1, if_neg h2, if_neg h3, if_neg h4, if_neg h5, ite_self]

/-- C3 witness: the quantified clause of c3_edge_weight_table applied to
a concrete unrecognized edge type. -/
theorem c3_edge_weight_table_witness :
    "mystery" ∉ ["prerequisite", "sequence", "contains", "leads_to", "related"] ∧
    getEdgeWeight "mystery" = 1 :=
  ⟨by decide, c3_edge_weight_table.2.2.2.2.2.2 "mystery" (by decide)⟩

/-! ### C8 — the clustering grouping loop is a hard partition -/

theorem any_key_iff (cs : List (ℤ × List String)) (cid : ℤ) :
    (cs.any (fun p => p.1 == cid) = true) ↔ cid ∈ cs.map (·.1) := by
  simp only [List.any_eq_true, List.mem_map, beq_iff_eq]

theorem addToCluster_cons_ne (c : ℤ × List String) (cs : List (ℤ × List String))
    (cid : ℤ) (t : String) (h : c.1 ≠ cid) :
    addToCluster (c :: cs) cid t = c :: addToCluster cs cid t := by
  have hc : (c.1 == cid) = false := by simp [h]
  by_cases hany : cs.any (fun p => p.1 == cid) = true
  · simp [addToCluster, hc, hany, h]
  · simp only [Bool.not_eq_true] at hany
    simp [addToCluster, hc, hany, h]

theorem map_upd_keys (cs : List (ℤ × List String)) (cid : ℤ) (t : String) :
    (cs.map (fun p => if p.1 == cid then (p.1, p.2 ++ [t]) else p)).map (·.1) =
      cs.map (·.1) := by
  rw [List.map_map]
  refine List.map_congr_left ?_
  intro p _
  simp only [Function.comp_apply]
  split <;> rfl

theorem addToCluster_keys_mem (cs : List (ℤ × List String)) (cid : ℤ) (t : String)
    (h : cid ∈ cs.map (·.1)) :
    (addToCluster cs cid t).map (·.1) = cs.map (·.1) := by
  simp only [addToCluster, (any_key_iff cs cid).mpr h, if_true]
  exact map_upd_keys cs cid t

theorem addToCluster_keys_not_mem (cs : List (ℤ × List String)) (cid : ℤ) (t : String)
    (h : cid ∉ cs.map (·.1)) :
    (addToCluster cs cid t).map (·.1) = cs.map (·.1) ++ [cid] := by
  have : (cs.any (fun p => p.1 == cid)) = false := by
    rw [← Bool.not_eq_true, any_key_iff]
    exact h
  simp [addToCluster, this]

theorem addToCluster_keys_nodup (cs : List (ℤ × List String)) (cid : ℤ) (t : String)
    (h : (cs.map (·.1)).Nodup) : ((addToCluster cs cid t).map (·.1)).Nodup := by
  by_cases hmem : cid ∈ cs.map (·.1)
  · rw [addToCluster_keys_mem cs cid t hmem]; exact h
  · rw [addToCluster_keys_not_mem cs cid t hmem]
    simp [List.nodup_append, h, hmem]

theorem addToCluster_flat_perm (cs : List (ℤ × List String)) (cid : ℤ) (t : String)
    (h : (cs.map (·.1)).Nodup) :
    List.Perm ((addToCluster cs cid t).flatMap (·.2)) ((cs.flatMap (·.2)) ++ [t]) := by
  induction cs with
  | nil =>
    simp [addToCluster]
  | cons c cs ih =>
    simp only [List.map_cons, List.nodup_cons] at h
    obtain ⟨hc1, hcs⟩ := h
    by_cases hceq : c.1 = cid
    · have hany : ((c :: cs).any (fun p => p.1 == cid)) = true := by
        simp [List.any_cons, hceq]
      simp only [addToCluster, hany, if_true, List.map_cons]
      have hc : (c.1 == cid) = true := by simp [hceq]
      simp only [hc, if_true]
      have hrest : cs.map (fun p => if p.1 == cid then (p.1, p.2 ++ [t]) else p) = cs := by
        have step : ∀ p ∈ cs, (if p.1 == cid then (p.1, p.2 ++ [t]) else p) = id p := by
          intro p hp
          have hne : (p.1 == cid) = false := by
            simp only [beq_eq_false_iff_ne, ne_eq]
            intro hcontra
            exact hc1 (List.mem_map.mpr ⟨p, hp, by rw [hcontra, hceq]⟩)
          simp [hne]
        rw [List.map_congr_left step, List.map_id]
      rw [hrest]
      simp only [List.flatMap_cons]
      rw [List.append_assoc, List.append_assoc]
      exact List.Perm.append_left c.2 List.perm_append_comm
    · rw [addToCluster_cons_ne c cs cid t hceq]
      simp only [List.flatMap_cons]
      have hstep : List.Perm (c.2 ++ (addToCluster cs cid t).flatMap (·.2))
          (c.2 ++ (cs.flatMap (·.2) ++ [t])) := List.Perm.append_left c.2 (ih hcs)
      rw [← List.append_assoc] at hstep
      exact hstep

theorem performClustering_invariant (labels : String → ℤ) (ids : List String) :
    ∀ cs : List (ℤ × List String), (cs.map (·.1)).Nodup →
      ((ids.foldl (fun cs t => addToCluster cs (labels t) t) cs).map (·.1)).Nodup ∧
      List.Perm ((ids.foldl (fun cs t => addToCluster cs (labels t) t) cs).flatMap (·.2))
        ((cs.flatMap (·.2)) ++ ids) := by
  induction ids with
  | nil => intro cs h; exact ⟨h, by simp⟩
  | cons t ids ih =>
    intro cs h
    simp only [List.foldl_cons]
    obtain ⟨h1, h2⟩ := ih (addToCluster cs (labels t) t) (addToCluster_keys_nodup _ _ _ h)
    refine ⟨h1, ?_⟩
    refine h2.trans ?_
    have hp := List.Perm.append_right ids (addToCluster_flat_perm cs (labels t) t h)
    rw [List.append_assoc] at hp
    simpa using hp

/-- C8: after the grouping loop of perform_intelligent_clustering the
topics form a hard partition of the clusters, for any DBSCAN label
assignment: the concatenation of all clusters is a permutation of the
topic list, every topic id occurs exactly once across all clusters (so
none is unassigned and none is in two clusters), every cluster member is
a topic id, and zero topics give the empty mapping without raising. -/
theorem c8_clustering_partition (ids : List String) (labels : String → ℤ)
    (h : ids.Nodup) :
    List.Perm ((performClustering ids labels).flatMap (·.2)) ids ∧
    (∀ t ∈ ids, ((performClustering ids labels).flatMap (·.2)).count t = 1) ∧
    (∀ c ∈ performClustering ids labels, ∀ t ∈ c.2, t ∈ ids) ∧
    performClustering [] labels = [] := by
  obtain ⟨-, hperm⟩ := performClustering_invariant labels ids [] (by simp)
  have hperm2 : List.Perm ((performClustering ids labels).flatMap (·.2)) ids := by
    simpa [performClustering] using hperm
  refine ⟨hperm2, ?_, ?_, rfl⟩
  · intro t ht
    rw [hperm2.count_eq]
    exact List.count_eq_one_of_mem h ht
  · intro c hc t htc
    exact hperm2.mem_iff.mp (List.mem_flatMap.mpr ⟨c, hc, htc⟩)

/-- C8 witness: the partition invariant at a concrete three-topic list
with a constant labelling. -/
theorem c8_clustering_partition_witness :
    (["t1", "t2", "t3"] : List String).Nodup ∧
    (List.Perm ((performClustering ["t1", "t2", "t3"] (fun _ => 0)).flatMap (·.2))
        ["t1", "t2", "t3"] ∧
      (∀ t ∈ (["t1", "t2", "t3"] : List String),
        ((performClustering ["t1", "t2", "t3"] (fun _ => 0)).flatMap (·.2)).count t = 1) ∧
      (∀ c ∈ performClustering ["t1", "t2", "t3"] (fun _ => 0), ∀ t ∈ c.2,
        t ∈ (["t1", "t2", "t3"] : List String)) ∧
      performClustering [] (fun _ => (0 : ℤ)) = []) :=
  ⟨by decide, c8_clustering_partition ["t1", "t2", "t3"] (fun _ => 0) (by decide)⟩

/-! ### C9 — name lookup -/

theorem minStep_foldl_spec (l : List (String × String)) :
    ∀ q : String × String,
      ∃ p, l.foldl minStep (some q) = some p ∧
        p.1.length ≤ q.1.length ∧ (∀ r ∈ l, p.1.length ≤ r.1.length) ∧
        (p = q ∨ ∃ l₁ l₂, l = l₁ ++ p :: l₂ ∧ p.1.length < q.1.length ∧
          ∀ r ∈ l₁, p.1.length < r.1.length) := by
  induction l with
  | nil =>
    intro q
    exact ⟨q, rfl, le_refl _, by simp, Or.inl rfl⟩
  | cons r l ih =>
    intro q
    simp only [List.foldl_cons]
    by_cases h : r.1.length < q.1.length
    · have hstep : minStep (some q) r = some r := by simp [minStep, h]
      rw [hstep]
      obtain ⟨p, hfold, hle, hall, hdec⟩ := ih r
      refine ⟨p, hfold, le_of_lt (lt_of_le_of_lt hle h), ?_, ?_⟩
      · intro x hx
        rcases List.mem_cons.mp hx with h1 | h1
        · rw [h1]; exact hle
        · exact hall x h1
      · rcases hdec with h1 | ⟨l₁, l₂, hdecomp, hlt, hfirst⟩
        · refine Or.inr ⟨[], l, ?_, ?_, by simp⟩
          · rw [h1]; rfl
          · rw [h1]; exact h
        · refine Or.inr ⟨r :: l₁, l₂, by rw [hdecomp]; rfl, lt_trans hlt h, ?_⟩
          intro x hx
          rcases List.mem_cons.mp hx with h1 | h1
          · rw [h1]; exact hlt
          · exact hfirst x h1
    · have hstep : minStep (some q) r = some q := by simp [minStep, h]
      rw [hstep]
      obtain ⟨p, hfold, hle, hall, hdec⟩ := ih q
      push_neg at h
      refine ⟨p, hfold, hle, ?_, ?_⟩
      · intro x hx
        rcases List.mem_cons.mp hx with h1 | h1
        · rw [h1]; exact le_trans hle h
        · exact hall x h1
      · rcases hdec with h1 | ⟨l₁, l₂, hdecomp, hlt, hfirst⟩
        · exact Or.inl h1
        · refine Or.inr ⟨r :: l₁, l₂, by rw [hdecomp]; rfl, hlt, ?_⟩
          intro x hx
          rcases List.mem_cons.mp hx with h1 | h1
          · rw [h1]; exact lt_of_lt_of_le hlt h
          · exact hfirst x h1

theorem minByNameLen_spec (ms : List (String × String)) (h : ms ≠ []) :
    ∃ p l₁ l₂, minByNameLen ms = some p ∧ ms = l₁ ++ p :: l₂ ∧
      (∀ r ∈ ms, p.1.length ≤ r.1.length) ∧ (∀ r ∈ l₁, p.1.length < r.1.length) := by
  match ms with
  | [] => exact absurd rfl h
  | q :: l =>
    have hfold : minByNameLen (q :: l) = l.foldl minStep (some q) := rfl
    obtain ⟨p, hfold2, hle, hall, hdec⟩ := minStep_foldl_spec l q
    rw [hfold]
    rcases hdec with h1 | ⟨l₁, l₂, hdecomp, hlt, hfirst⟩
    · subst h1
      refine ⟨p, [], l, hfold2, rfl, ?_, by simp⟩
      intro r hr
      rcases List.mem_cons.mp hr with h2 | h2
      · rw [h2]
      · exact hall r h2
    · refine ⟨p, q :: l₁, l₂, hfold2, by rw [hdecomp]; simp, ?_, ?_⟩
      · intro r hr
        rcases List.mem_cons.mp hr with h2 | h2
        · rw [h2]; exact hle
        · exact hall r h2
      · intro r hr
        rcases List.mem_cons.mp hr with h2 | h2
        · rw [h2]; exact hlt
        · exact hfirst r h2

/-- C9: find_node_by_name is deterministic for a fixed map: it is a pure
function whose result depends on the query only through its lowered and
stripped form, which also makes it case-insensitive; and when there is no
exact key match and some stored names match by substring, the returned
id is that of the match whose stored name is shortest, ties broken by
first position in insertion order (every earlier match is strictly
longer). -/
theorem c9_find_node_by_name (m : List (String × String)) :
    (∀ q1 q2, pyStrip (pyLower q1) = pyStrip (pyLower q2) →
      findNodeByName m q1 = findNodeByName m q2) ∧
    (∀ name, m.find? (fun p => p.1 == pyStrip (pyLower name)) = none →
      nameMatches m (pyStrip (pyLower name)) ≠ [] →
      ∃ p l₁ l₂, nameMatches m (pyStrip (pyLower name)) = l₁ ++ p :: l₂ ∧
        findNodeByName m name = some p.2 ∧
        (∀ r ∈ nameMatches m (pyStrip (pyLower name)), p.1.length ≤ r.1.length) ∧
        (∀ r ∈ l₁, p.1.length < r.1.length)) := by
  constructor
  · intro q1 q2 h
    unfold findNodeByName
    rw [h]
  · intro name hfind hne
    rcases hm : nameMatches m (pyStrip (pyLower name)) with _ | ⟨p, _ | ⟨r, rest⟩⟩
    · exact absurd hm hne
    · refine ⟨p, [], [], by simp, ?_, ?_, by simp⟩
      · simp [findNodeByName, hfind, hm]
      · intro x hx
        simp only [List.mem_singleton] at hx
        rw [hx]
    · obtain ⟨pm, l₁, l₂, hmin, hdecomp, hall, hfirst⟩ :=
        minByNameLen_spec (p :: r :: rest) (by simp)
      refine ⟨pm, l₁, l₂, hdecomp, ?_, ?_, hfirst⟩
      · simp [findNodeByName, hfind, hm, hmin]
      · intro x hx
        exact hall x hx

/-- C9 witness: on the name map of G9, a differently-cased and padded
query resolves like its lowercase form, and the ambiguous query ARR
resolves to the shortest stored match (array, id t1), which is also
first in insertion order. -/
theorem c9_find_node_by_name_witness :
    (pyStrip (pyLower "  ARRAY ") = pyStrip (pyLower "array") ∧
      findNodeByName (nameMap G9) "  ARRAY " = findNodeByName (nameMap G9) "array") ∧
    ((nameMap G9).find? (fun p => p.1 == pyStrip (pyLower "ARR")) = none ∧
      nameMatches (nameMap G9) (pyStrip (pyLower "ARR")) ≠ [] ∧
      ∃ p l₁ l₂, nameMatches (nameMap G9) (pyStrip (pyLower "ARR")) = l₁ ++ p :: l₂ ∧
        findNodeByName (nameMap G9) "ARR" = some p.2 ∧
        (∀ r ∈ nameMatches (nameMap G9) (pyStrip (pyLower "ARR")), p.1.length ≤ r.1.length) ∧
        (∀ r ∈ l₁, p.1.length < r.1.length)) :=
  ⟨⟨by decide, (c9_find_node_by_name (nameMap G9)).1 "  ARRAY " "array" (by decide)⟩,
   ⟨by decide, by decide,
    (c9_find_node_by_name (nameMap G9)).2 "ARR" (by decide) (by decide)⟩⟩

/-! ### Structural lemmas about the graph search -/

theorem dedupKeepFirst_subset (l : List String) :
    ∀ x ∈ dedupKeepFirst l, x ∈ l := by
  intro x hx
  rcases dedupKeepFirst_sub_aux l [] x hx with h | h
  · exact absurd h (List.not_mem_nil x)
  · exact h

theorem preds_subset_nodeSet (g : Graph) (v : String) :
    ∀ x ∈ preds g v, x ∈ nodeSet g := by
  intro x hx
  have hx2 := dedupKeepFirst_subset _ x hx
  rcases List.mem_map.mp hx2 with ⟨e, he, hes⟩
  have he2 : e ∈ g.edges := List.mem_of_mem_filter he
  unfold nodeSet
  refine List.mem_append.mpr (Or.inl (List.mem_append.mpr (Or.inr ?_)))
  exact List.mem_map.mpr ⟨e, he2, hes⟩

theorem simplePaths_ne_nil (g : Graph) :
    ∀ fuel s t visited, ∀ p ∈ simplePaths g fuel s t visited, p ≠ [] := by
  intro fuel
  induction fuel with
  | zero => intro s t visited p hp; simp [simplePaths] at hp
  | succ fuel ih =>
    intro s t visited p hp
    simp only [simplePaths] at hp
    by_cases hst : (s == t) = true
    · rw [if_pos hst] at hp
      simp only [List.mem_singleton] at hp
      rw [hp]
      simp
    · rw [if_neg hst] at hp
      rcases List.mem_flatMap.mp hp with ⟨n, _, hp2⟩
      rcases List.mem_map.mp hp2 with ⟨q, _, hq2⟩
      rw [← hq2]
      simp

theorem simplePaths_head (g : Graph) :
    ∀ fuel s t visited, ∀ p ∈ simplePaths g fuel s t visited, ∃ rest, p = s :: rest := by
  intro fuel
  induction fuel with
  | zero => intro s t visited p hp; simp [simplePaths] at hp
  | succ fuel ih =>
    intro s t visited p hp
    simp only [simplePaths] at hp
    by_cases hst : (s == t) = true
    · rw [if_pos hst] at hp
      simp only [List.mem_singleton] at hp
      exact ⟨[], by rw [hp, beq_iff_eq.mp hst]⟩
    · rw [if_neg hst] at hp
      rcases List.mem_flatMap.mp hp with ⟨n, _, hp2⟩
      rcases List.mem_map.mp hp2 with ⟨q, _, hq2⟩
      exact ⟨q, hq2.symm⟩

theorem simplePaths_drop_ne_nil (g : Graph) (fuel : ℕ) (s t : String)
    (visited : List String) (p : List String) (hp : p ∈ simplePaths g fuel s t visited)
    (hst : s ≠ t) : p.drop 1 ≠ [] := by
  cases fuel with
  | zero => simp [simplePaths] at hp
  | succ fuel =>
    simp only [simplePaths] at hp
    rw [if_neg (by simp [hst])] at hp
    rcases List.mem_flatMap.mp hp with ⟨n, _, hp2⟩
    rcases List.mem_map.mp hp2 with ⟨q, hq, hq2⟩
    have hqne : q ≠ [] := simplePaths_ne_nil g fuel n t (s :: visited) q hq
    rw [← hq2]
    simpa using hqne

theorem minPath_mem (g : Graph) (s t : String) (p : List String) (d : ℕ)
    (h : minPath g s t = some (p, d)) :
    p ∈ simplePaths g (g.edges.length + 2) s t [] ∧ d = pathWeightT g p := by
  unfold minPath at h
  suffices haux : ∀ (l : List (List String)) (acc : Option (List String × ℕ)),
      l.foldl (fun acc p =>
        match acc with
        | none => some (p, pathWeightT g p)
        | some (q, w) =>
          if pathWeightT g p < w then some (p, pathWeightT g p) else some (q, w)) acc
        = some (p, d) →
      acc = some (p, d) ∨ (p ∈ l ∧ d = pathWeightT g p) by
    rcases haux _ none h with h1 | h1
    · exact absurd h1 (by simp)
    · exact h1
  intro l
  induction l with
  | nil => intro acc hacc; exact Or.inl hacc
  | cons q l ih =>
    intro acc hacc
    simp only [List.foldl_cons] at hacc
    rcases ih _ hacc with h1 | h1
    · match acc with
      | none =>
        simp only [Option.some.injEq, Prod.mk.injEq] at h1
        obtain ⟨hqp, hd⟩ := h1
        exact Or.inr ⟨by rw [← hqp]; exact List.mem_cons_self q l, by rw [← hqp]; exact hd.symm⟩
      | some (q2, w) =>
        by_cases hlt : pathWeightT g q < w
        · simp only [hlt, if_pos, Option.some.injEq, Prod.mk.injEq] at h1
          obtain ⟨hqp, hd⟩ := h1
          exact Or.inr ⟨by rw [← hqp]; exact List.mem_cons_self q l, by rw [← hqp]; exact hd.symm⟩
        · simp only [hlt, if_false] at h1
          exact Or.inl h1
    · exact Or.inr ⟨List.mem_cons_of_mem q h1.1, h1.2⟩

theorem directLoop_ok (g : Graph) (target : String) :
    ∀ (l : List String) (acc : Option (List String × ℕ)),
      (∀ c ∈ l, c ∈ nodeSet g) → target ∈ nodeSet g →
      ∃ b, directLoop g target l acc = .ok b := by
  intro l
  induction l with
  | nil => intro acc _ _; exact ⟨acc, rfl⟩
  | cons c cs ih =>
    intro acc hl ht
    have hc : c ∈ nodeSet g := hl c (List.mem_cons_self c cs)
    have hcs : ∀ x ∈ cs, x ∈ nodeSet g := fun x hx => hl x (List.mem_cons_of_mem c hx)
    simp only [directLoop, if_pos (And.intro hc ht)]
    cases hmp : minPath g c target with
    | none => exact ih acc hcs ht
    | some pd =>
      match pd with
      | (p, d) =>
        cases acc with
        | none => exact ih _ hcs ht
        | some bpd =>
          match bpd with
          | (bp, bd) =>
            by_cases hlt : d < bd
            · simp only [hlt, if_pos]
              exact ih _ hcs ht
            · simp only [hlt, if_false]
              exact ih _ hcs ht

theorem directLoop_all_none (g : Graph) (target : String) :
    ∀ (l : List String) (acc : Option (List String × ℕ)),
      (∀ c ∈ l, minPath g c target = none) →
      (∀ c ∈ l, c ∈ nodeSet g) → target ∈ nodeSet g →
      directLoop g target l acc = .ok acc := by
  intro l
  induction l with
  | nil => intro acc _ _ _; rfl
  | cons c cs ih =>
    intro acc hnone hl ht
    have hc : c ∈ nodeSet g := hl c (List.mem_cons_self c cs)
    simp only [directLoop, if_pos (And.intro hc ht),
      hnone c (List.mem_cons_self c cs)]
    exact ih acc (fun x hx => hnone x (List.mem_cons_of_mem c hx))
      (fun x hx => hl x (List.mem_cons_of_mem c hx)) ht

theorem directLoop_acc_some (g : Graph) (target : String) :
    ∀ (l : List String) (x : List String × ℕ) (b : Option (List String × ℕ)),
      directLoop g target l (some x) = .ok b → ∃ y, b = some y := by
  intro l
  induction l with
  | nil =>
    intro x b h
    simp only [directLoop, Except.ok.injEq] at h
    exact ⟨x, h.symm⟩
  | cons c cs ih =>
    intro x b h
    simp only [directLoop] at h
    by_cases hcond : c ∈ nodeSet g ∧ target ∈ nodeSet g
    · rw [if_pos hcond] at h
      cases hmp : minPath g c target with
      | none => rw [hmp] at h; exact ih x b h
      | some pd =>
        rw [hmp] at h
        match pd, x with
        | (p, d), (q, w) =>
          dsimp only at h
          by_cases hlt : d < w
          · rw [if_pos hlt] at h
            exact ih _ b h
          · rw [if_neg hlt] at h
            exact ih _ b h
    · rw [if_neg hcond] at h
      exact absurd h (by simp)

theorem directLoop_found_some (g : Graph) (target : String) :
    ∀ (l : List String) (acc : Option (List String × ℕ)) (c : String)
      (p : List String) (d : ℕ) (b : Option (List String × ℕ)),
      c ∈ l → minPath g c target = some (p, d) →
      directLoop g target l acc = .ok b → ∃ y, b = some y := by
  intro l
  induction l with
  | nil => intro acc c p d b hc; exact absurd hc (List.not_mem_nil c)
  | cons c0 cs ih =>
    intro acc c p d b hc hmp h
    simp only [directLoop] at h
    by_cases hcond : c0 ∈ nodeSet g ∧ target ∈ nodeSet g
    · rw [if_pos hcond] at h
      rcases List.mem_cons.mp hc with hceq | hcmem
      · subst hceq
        rw [hmp] at h
        cases acc with
        | none =>
          dsimp only at h
          exact directLoop_acc_some g target cs _ b h
        | some x =>
          match x with
          | (q, w) =>
            dsimp only at h
            by_cases hlt : d < w
            · rw [if_pos hlt] at h
              exact directLoop_acc_some g target cs _ b h
            · rw [if_neg hlt] at h
              exact directLoop_acc_some g target cs _ b h
      · cases hmp0 : minPath g c0 target with
        | none =>
          rw [hmp0] at h
          exact ih acc c p d b hcmem hmp h
        | some pd0 =>
          rw [hmp0] at h
          match pd0 with
          | (p0, d0) =>
            cases acc with
            | none =>
              dsimp only at h
              exact ih _ c p d b hcmem hmp h
            | some x =>
              match x with
              | (q, w) =>
                dsimp only at h
                by_cases hlt : d0 < w
                · rw [if_pos hlt] at h
                  exact ih _ c p d b hcmem hmp h
                · rw [if_neg hlt] at h
                  exact ih _ c p d b hcmem hmp h
    · rw [if_neg hcond] at h
      exact absurd h (by simp)

theorem directLoop_achieved (g : Graph) (target : String) :
    ∀ (l : List String) (acc : Option (List String × ℕ)) (bp : List String) (bd : ℕ),
      directLoop g target l acc = .ok (some (bp, bd)) →
      acc = some (bp, bd) ∨
        ∃ c ∈ l, ∃ p, minPath g c target = some (p, bd) ∧ bp = p.drop 1 := by
  intro l
  induction l with
  | nil =>
    intro acc bp bd h
    simp only [directLoop, Except.ok.injEq] at h
    exact Or.inl h
  | cons c cs ih =>
    intro acc bp bd h
    simp only [directLoop] at h
    by_cases hcond : c ∈ nodeSet g ∧ target ∈ nodeSet g
    · rw [if_pos hcond] at h
      cases hmp : minPath g c target with
      | none =>
        rw [hmp] at h
        rcases ih acc bp bd h with h1 | ⟨c2, hc2, p2, hp2⟩
        · exact Or.inl h1
        · exact Or.inr ⟨c2, List.mem_cons_of_mem c hc2, p2, hp2⟩
      | some pd =>
        rw [hmp] at h
        match pd with
        | (p, d) =>
          cases acc with
          | none =>
            dsimp only at h
            rcases ih _ bp bd h with h1 | ⟨c2, hc2, p2, hp2⟩
            · simp only [Option.some.injEq, Prod.mk.injEq] at h1
              exact Or.inr ⟨c, List.mem_cons_self c cs, p,
                by rw [hmp, h1.2], h1.1.symm⟩
            · exact Or.inr ⟨c2, List.mem_cons_of_mem c hc2, p2, hp2⟩
          | some x =>
            match x with
            | (q, w) =>
              dsimp only at h
              by_cases hlt : d < w
              · rw [if_pos hlt] at h
                rcases ih _ bp bd h with h1 | ⟨c2, hc2, p2, hp2⟩
                · simp only [Option.some.injEq, Prod.mk.injEq] at h1
                  exact Or.inr ⟨c, List.mem_cons_self c cs, p,
                    by rw [hmp, h1.2], h1.1.symm⟩
                · exact Or.inr ⟨c2, List.mem_cons_of_mem c hc2, p2, hp2⟩
              · rw [if_neg hlt] at h
                rcases ih _ bp bd h with h1 | ⟨c2, hc2, p2, hp2⟩
                · exact Or.inl h1
                · exact Or.inr ⟨c2, List.mem_cons_of_mem c hc2, p2, hp2⟩
    · rw [if_neg hcond] at h
      exact absurd h (by simp)

theorem directLoop_le_acc (g : Graph) (target : String) :
    ∀ (l : List String) (q : List String) (w : ℕ) (bp : List String) (bd : ℕ),
      directLoop g target l (some (q, w)) = .ok (some (bp, bd)) → bd ≤ w := by
  intro l
  induction l with
  | nil =>
    intro q w bp bd h
    simp only [directLoop, Except.ok.injEq, Option.some.injEq, Prod.mk.injEq] at h
    omega
  | cons c cs ih =>
    intro q w bp bd h
    simp only [directLoop] at h
    by_cases hcond : c ∈ nodeSet g ∧ target ∈ nodeSet g
    · rw [if_pos hcond] at h
      cases hmp : minPath g c target with
      | none =>
        rw [hmp] at h
        exact ih q w bp bd h
      | some pd =>
        rw [hmp] at h
        match pd with
        | (p, d) =>
          dsimp only at h
          by_cases hlt : d < w
          · rw [if_pos hlt] at h
            exact le_trans (ih _ d bp bd h) (le_of_lt hlt)
          · rw [if_neg hlt] at h
            exact ih q w bp bd h
    · rw [if_neg hcond] at h
      exact absurd h (by simp)

theorem directLoop_le_found (g : Graph) (target : String) :
    ∀ (l : List String) (acc : Option (List String × ℕ)) (c : String)
      (p : List String) (d : ℕ) (bp : List String) (bd : ℕ),
      c ∈ l → minPath g c target = some (p, d) →
      directLoop g target l acc = .ok (some (bp, bd)) → bd ≤ d := by
  intro l
  induction l with
  | nil => intro acc c p d bp bd hc; exact absurd hc (List.not_mem_nil c)
  | cons c0 cs ih =>
    intro acc c p d bp bd hc hmp h
    simp only [directLoop] at h
    by_cases hcond : c0 ∈ nodeSet g ∧ target ∈ nodeSet g
    · rw [if_pos hcond] at h
      rcases List.mem_cons.mp hc with hceq | hcmem
      · subst hceq
        rw [hmp] at h
        cases acc with
        | none =>
          dsimp only at h
          exact directLoop_le_acc g target cs _ d bp bd h
        | some x =>
          match x with
          | (q, w) =>
            dsimp only at h
            by_cases hlt : d < w
            · rw [if_pos hlt] at h
              exact directLoop_le_acc g target cs _ d bp bd h
            · rw [if_neg hlt] at h
              exact le_trans (directLoop_le_acc g target cs q w bp bd h) (not_lt.mp hlt)
      · cases hmp0 : minPath g c0 target with
        | none =>
          rw [hmp0] at h
          exact ih acc c p d bp bd hcmem hmp h
        | some pd0 =>
          rw [hmp0] at h
          match pd0 with
          | (p0, d0) =>
            cases acc with
            | none =>
              dsimp only at h
              exact ih _ c p d bp bd hcmem hmp h
            | some x =>
              match x with
              | (q, w) =>
                dsimp only at h
                by_cases hlt : d0 < w
                · rw [if_pos hlt] at h
                  exact ih _ c p d bp bd hcmem hmp h
                · rw [if_neg hlt] at h
                  exact ih _ c p d bp bd hcmem hmp h
    · rw [if_neg hcond] at h
      exact absurd h (by simp)

theorem collectPreds_spec (g : Graph) (completed : List String) (current : String) :
    ∀ (ps : List String) (mq : List String × List String),
      (∀ x ∈ (collectPreds g completed current ps mq).1,
        x ∈ mq.1 ∨ (x ∈ ps ∧ x ∉ completed)) ∧
      (∀ x ∈ (collectPreds g completed current ps mq).2, x ∈ mq.2 ∨ x ∈ ps) := by
  intro ps
  induction ps with
  | nil =>
    intro mq
    exact ⟨fun x hx => Or.inl hx, fun x hx => Or.inl hx⟩
  | cons p ps ih =>
    intro mq
    obtain ⟨missing, queue⟩ := mq
    by_cases hcond : (((edgeTypeOf g p current).getD "" == "prerequisite"
          || (edgeTypeOf g p current).getD "" == "sequence")
        && !(completed.contains p)) = true
    · have hpnc : p ∉ completed := by
        have := (Bool.and_eq_true _ _).mp hcond
        simpa using this.2
      simp only [collectPreds, hcond, if_pos]
      constructor
      · intro x hx
        rcases (ih ((if p ∈ missing then missing else missing ++ [p]), queue ++ [p])).1 x hx
          with h1 | h1
        · by_cases hp : p ∈ missing
          · rw [if_pos hp] at h1
            exact Or.inl h1
          · rw [if_neg hp] at h1
            rcases List.mem_append.mp h1 with h2 | h2
            · exact Or.inl h2
            · simp only [List.mem_singleton] at h2
              exact Or.inr ⟨by rw [h2]; exact List.mem_cons_self p ps, by rw [h2]; exact hpnc⟩
        · exact Or.inr ⟨List.mem_cons_of_mem p h1.1, h1.2⟩
      · intro x hx
        rcases (ih ((if p ∈ missing then missing else missing ++ [p]), queue ++ [p])).2 x hx
          with h1 | h1
        · rcases List.mem_append.mp h1 with h2 | h2
          · exact Or.inl h2
          · simp only [List.mem_singleton] at h2
            exact Or.inr (by rw [h2]; exact List.mem_cons_self p ps)
        · exact Or.inr (List.mem_cons_of_mem p h1)
    · simp only [Bool.not_eq_true] at hcond
      simp only [collectPreds, hcond, Bool.false_eq_true, if_false]
      constructor
      · intro x hx
        rcases (ih (missing, queue)).1 x hx with h1 | h1
        · exact Or.inl h1
        · exact Or.inr ⟨List.mem_cons_of_mem p h1.1, h1.2⟩
      · intro x hx
        rcases (ih (missing, queue)).2 x hx with h1 | h1
        · exact Or.inl h1
        · exact Or.inr (List.mem_cons_of_mem p h1)

theorem findMissingAux_ok (g : Graph) (completed : List String) :
    ∀ (fuel : ℕ) (queue visited missing : List String),
      (∀ x ∈ queue, x ∈ nodeSet g) →
      ∃ res, findMissingAux g completed fuel queue visited missing = .ok res := by
  intro fuel
  induction fuel with
  | zero => intro queue visited missing _; exact ⟨missing, rfl⟩
  | succ fuel ih =>
    intro queue visited missing hq
    match queue with
    | [] => exact ⟨missing, rfl⟩
    | current :: rest =>
      by_cases hvis : current ∈ visited
      · simp only [findMissingAux, hvis, if_pos]
        exact ih rest visited missing (fun x hx => hq x (List.mem_cons_of_mem current hx))
      · have hcur : current ∈ nodeSet g := hq current (List.mem_cons_self current rest)
        simp only [findMissingAux, hvis, if_false, hcur, if_pos]
        refine ih _ _ _ ?_
        intro x hx
        rcases (collectPreds_spec g completed current (preds g current) (missing, rest)).2
          x hx with h1 | h1
        · exact hq x (List.mem_cons_of_mem current h1)
        · exact preds_subset_nodeSet g current x h1

theorem findMissingAux_not_completed (g : Graph) (completed : List String) :
    ∀ (fuel : ℕ) (queue visited missing res : List String),
      (∀ x ∈ missing, x ∉ completed) →
      findMissingAux g completed fuel queue visited missing = .ok res →
      ∀ x ∈ res, x ∉ completed := by
  intro fuel
  induction fuel with
  | zero =>
    intro queue visited missing res hm h
    simp only [findMissingAux, Except.ok.injEq] at h
    rw [← h]
    exact hm
  | succ fuel ih =>
    intro queue visited missing res hm h
    match queue with
    | [] =>
      simp only [findMissingAux, Except.ok.injEq] at h
      rw [← h]
      exact hm
    | current :: rest =>
      by_cases hvis : current ∈ visited
      · simp only [findMissingAux, hvis, if_pos] at h
        exact ih rest visited missing res hm h
      · by_cases hcur : current ∈ nodeSet g
        · simp only [findMissingAux, hvis, if_false, hcur, if_pos] at h
          refine ih _ _ _ res ?_ h
          intro x hx
          rcases (collectPreds_spec g completed current (preds g current)
            (missing, rest)).1 x hx with h1 | h1
          · exact hm x h1
          · exact h1.2
        · simp only [findMissingAux, hvis, if_false, hcur] at h
          exact absurd h (by simp)

theorem findMissingAux_error (g : Graph) (completed : List String) (target : String)
    (fuel : ℕ) (ht1 : target ∉ completed) (ht2 : target ∉ nodeSet g) :
    findMissingAux g completed (fuel + 1) [target] completed [] = .error () := by
  simp only [findMissingAux, ht1, if_false, ht2]

theorem findMissingPrereqs_eq (g : Graph) (completed : List String) (target : String)
    (miss : List String)
    (h : findMissingAux g completed (g.edges.length + 2) [target] completed [] = .ok miss) :
    findMissingPrereqs g completed target =
      .ok (sortLE (fun a b => distLEb (distToTarget g a target) (distToTarget g b target))
        miss) := by
  simp [findMissingPrereqs, h]

theorem fallbackPath_eq_prereq (g : Graph) (clusters : List (ℤ × List String))
    (completed : List String) (target : String) (sorted : List String)
    (h : findMissingPrereqs g completed target = .ok sorted) (hne : sorted ≠ []) :
    fallbackPath g clusters completed target =
      .ok ⟨sorted, some (sorted.length : ℚ), "prerequisite_chain"⟩ := by
  simp [fallbackPath, h, hne, Bind.bind, Except.bind, pure, Except.pure]

theorem fallbackPath_eq_cluster (g : Graph) (clusters : List (ℤ × List String))
    (completed : List String) (target : String)
    (h : findMissingPrereqs g completed target = .ok []) :
    fallbackPath g clusters completed target =
      .ok ⟨findClusterBasedPath g clusters completed target,
        some ((findClusterBasedPath g clusters completed target).length : ℚ),
        "cluster_based"⟩ := by
  simp [fallbackPath, h, Bind.bind, Except.bind, pure, Except.pure]

theorem findOptimalPathE_already (g : Graph) (clusters : List (ℤ × List String))
    (completed : List String) (target : String) (h : target ∈ completed) :
    findOptimalPathE g clusters completed target = .ok ⟨[], none, "already_completed"⟩ := by
  simp [findOptimalPathE, h]

theorem findOptimalPathE_of_none (g : Graph) (clusters : List (ℤ × List String))
    (completed : List String) (target : String) (h : target ∉ completed)
    (hdl : directLoop g target completed none = .ok none) :
    findOptimalPathE g clusters completed target = fallbackPath g clusters completed target := by
  simp [findOptimalPathE, h, hdl]

theorem findOptimalPathE_of_some (g : Graph) (clusters : List (ℤ × List String))
    (completed : List String) (target : String) (bp : List String) (bd : ℕ)
    (h : target ∉ completed)
    (hdl : directLoop g target completed none = .ok (some (bp, bd))) (hbp : bp ≠ []) :
    findOptimalPathE g clusters completed target =
      .ok ⟨bp, some ((bd : ℚ) / 10), "direct_path"⟩ := by
  simp [findOptimalPathE, h, hdl, hbp]

theorem findOptimalPathE_error_iff (g : Graph) (clusters : List (ℤ × List String))
    (completed : List String) (target : String) (hsub : ∀ c ∈ completed, c ∈ nodeSet g) :
    (∃ r, findOptimalPathE g clusters completed target = .ok r) ↔ target ∈ nodeSet g := by
  constructor
  · intro ⟨r, hr⟩
    by_contra ht
    by_cases hmem : target ∈ completed
    · exact ht (hsub target hmem)
    · match completed, hsub with
      | [], _ =>
        have hdl : directLoop g target [] none = .ok none := rfl
        rw [findOptimalPathE_of_none g clusters [] target hmem hdl] at hr
        have herr : findMissingPrereqs g [] target = .error () := by
          have h2 : g.edges.length + 2 = (g.edges.length + 1) + 1 := rfl
          simp only [findMissingPrereqs, h2,
            findMissingAux_error g [] target (g.edges.length + 1) hmem ht]
          rfl
        rw [fallbackPath] at hr
        rw [herr] at hr
        exact absurd hr (by simp [Bind.bind, Except.bind])
      | c :: cs, hsub =>
        have hc : c ∈ nodeSet g := hsub c (List.mem_cons_self c cs)
        have : directLoop g target (c :: cs) none = .error () := by
          simp only [directLoop]
          rw [if_neg]
          intro hand
          exact ht hand.2
        simp only [findOptimalPathE, hmem, if_false, this] at hr
        exact absurd hr (by simp)
  · intro ht
    by_cases hmem : target ∈ completed
    · exact ⟨_, findOptimalPathE_already g clusters completed target hmem⟩
    · obtain ⟨b, hb⟩ := directLoop_ok g target completed none hsub ht
      have hqn : ∀ x ∈ [target], x ∈ nodeSet g := by
        intro x hx
        simp only [List.mem_singleton] at hx
        rw [hx]
        exact ht
      have hfb : ∃ rf, fallbackPath g clusters completed target = .ok rf := by
        obtain ⟨miss, hmiss⟩ := findMissingAux_ok g completed (g.edges.length + 2)
          [target] completed [] hqn
        have hmp := findMissingPrereqs_eq g completed target miss hmiss
        by_cases hne : sortLE (fun a b => distLEb (distToTarget g a target)
            (distToTarget g b target)) miss = []
        · rw [hne] at hmp
          exact ⟨_, fallbackPath_eq_cluster g clusters completed target hmp⟩
        · exact ⟨_, fallbackPath_eq_prereq g clusters completed target _ hmp hne⟩
      cases b with
      | none =>
        obtain ⟨rf, hrf⟩ := hfb
        exact ⟨rf, by rw [findOptimalPathE_of_none g clusters completed target hmem hb, hrf]⟩
      | some x =>
        match x with
        | (bp, bd) =>
          by_cases hbp : bp = []
          · obtain ⟨rf, hrf⟩ := hfb
            refine ⟨rf, ?_⟩
            subst hbp
            simp only [findOptimalPathE, hmem, if_false, hb]
            simpa using hrf
          · exact ⟨_, findOptimalPathE_of_some g clusters completed target bp bd hmem hb hbp⟩

/-! ### C4 — unknown targets versus graceful results -/

theorem insertAssoc_mem (m : List (String × String)) (k v : String) :
    ∀ p ∈ insertAssoc m k v, p ∈ m ∨ p = (k, v) := by
  intro p hp
  unfold insertAssoc at hp
  by_cases hany : m.any (fun q => q.1 == k) = true
  · rw [if_pos hany] at hp
    rcases List.mem_map.mp hp with ⟨q, hq, hqe⟩
    by_cases hqk : (q.1 == k) = true
    · rw [if_pos hqk] at hqe
      exact Or.inr hqe.symm
    · rw [if_neg hqk] at hqe
      exact Or.inl (hqe ▸ hq)
  · rw [if_neg hany] at hp
    rcases List.mem_append.mp hp with h | h
    · exact Or.inl h
    · simp only [List.mem_singleton] at h
      exact Or.inr h

theorem buildNameMap_values (ns : List NodeData) :
    ∀ p ∈ buildNameMap ns, p.2 ∈ ns.map (·.id) := by
  suffices haux : ∀ (l : List NodeData) (acc : List (String × String)),
      ∀ p ∈ l.foldl (fun m n => insertAssoc m (pyLower n.name) n.id) acc,
        p ∈ acc ∨ p.2 ∈ l.map (·.id) by
    intro p hp
    rcases haux ns [] p hp with h | h
    · exact absurd h (List.not_mem_nil p)
    · exact h
  intro l
  induction l with
  | nil => intro acc p hp; exact Or.inl hp
  | cons n l ih =>
    intro acc p hp
    simp only [List.foldl_cons] at hp
    rcases ih _ p hp with h | h
    · rcases insertAssoc_mem acc (pyLower n.name) n.id p h with h2 | h2
      · exact Or.inl h2
      · refine Or.inr ?_
        rw [h2]
        exact List.mem_map.mpr ⟨n, List.mem_cons_self n l, rfl⟩
    · exact Or.inr (List.mem_map.mp h |>.elim
        (fun q hq => List.mem_map.mpr ⟨q, List.mem_cons_of_mem n hq.1, hq.2⟩))

theorem minByNameLen_mem (ms : List (String × String)) (p : String × String)
    (h : minByNameLen ms = some p) : p ∈ ms := by
  match ms with
  | [] => exact absurd h (by simp [minByNameLen])
  | q :: l =>
    obtain ⟨p2, l₁, l₂, hmin, hdecomp, -, -⟩ := minByNameLen_spec (q :: l) (by simp)
    rw [hmin] at h
    have hpp : p2 = p := Option.some.inj h
    rw [hdecomp, ← hpp]
    exact List.mem_append.mpr (Or.inr (List.mem_cons_self p2 l₂))

theorem findNodeByName_mem_values (m : List (String × String)) (q : String) (i : String)
    (h : findNodeByName m q = some i) : ∃ p ∈ m, p.2 = i := by
  simp only [findNodeByName] at h
  cases hf : m.find? (fun p => p.1 == pyStrip (pyLower q)) with
  | some p =>
    rw [hf] at h
    exact ⟨p, List.mem_of_find?_eq_some hf, Option.some.inj h⟩
  | none =>
    rw [hf] at h
    rcases hm : nameMatches m (pyStrip (pyLower q)) with _ | ⟨p, _ | ⟨r, rest⟩⟩
    · rw [hm] at h
      exact absurd h (by simp)
    · rw [hm] at h
      refine ⟨p, ?_, Option.some.inj h⟩
      have : p ∈ nameMatches m (pyStrip (pyLower q)) := by
        rw [hm]; exact List.mem_singleton_self p
      exact List.mem_of_mem_filter this
    · rw [hm] at h
      have h2 : Option.map (fun x => x.2) (minByNameLen (p :: r :: rest)) = some i := h
      rcases Option.map_eq_some'.mp h2 with ⟨pm, hmin, hpmi⟩
      have hpm : pm ∈ nameMatches m (pyStrip (pyLower q)) := by
        rw [hm]
        exact minByNameLen_mem _ pm hmin
      exact ⟨pm, List.mem_of_mem_filter hpm, hpmi⟩

theorem findNodeByName_nameMap_nodeSet (g : Graph) (q i : String)
    (h : findNodeByName (nameMap g) q = some i) : i ∈ nodeSet g := by
  obtain ⟨p, hp, hpe⟩ := findNodeByName_mem_values (nameMap g) q i h
  have hv := buildNameMap_values (topicsOf g ++ subtopicsOf g) p hp
  rcases List.mem_map.mp hv with ⟨n, hn, hni⟩
  have hng : n ∈ g.nodes := by
    rcases List.mem_append.mp hn with h2 | h2
    · exact List.mem_of_mem_filter h2
    · exact List.mem_of_mem_filter h2
  unfold nodeSet nodeIds
  refine List.mem_append.mpr (Or.inl (List.mem_append.mpr (Or.inl ?_)))
  exact List.mem_map.mpr ⟨n, hng, by rw [hni, hpe]⟩

/-- C4: given resolved completed ids, find_optimal_learning_path yields
a result exactly when the target id resolves in the graph (an absent
target raises, an absent path never does — some result, possibly with an
empty list, is always returned); and the resolution gate of
analyze_learning_gap_with_real_graph makes the error recoverable: it
either returns None (target name did not resolve, reported to the user)
or a successful path result, never a propagated exception. -/
theorem c4_unknown_concept (g : Graph) (clusters : List (ℤ × List String)) :
    (∀ (completed : List String) (target : String),
      (∀ c ∈ completed, c ∈ nodeSet g) →
      ((∃ r, findOptimalPathE g clusters completed target = .ok r) ↔
        target ∈ nodeSet g)) ∧
    (∀ (completedNames : List String) (targetName : String),
      resolveAndFindPath g clusters completedNames targetName = none ∨
      ∃ r, resolveAndFindPath g clusters completedNames targetName = some (.ok r)) := by
  constructor
  · intro completed target hsub
    exact findOptimalPathE_error_iff g clusters completed target hsub
  · intro completedNames targetName
    cases hfind : findNodeByName (nameMap g) targetName with
    | none =>
      left
      simp only [resolveAndFindPath, hfind]
    | some tid =>
      by_cases htid : tid = ""
      · left
        simp only [resolveAndFindPath, hfind, htid, if_pos]
      · refine Or.inr ?_
        have hids : ∀ c ∈ completedNames.filterMap
            (fun n => match findNodeByName (nameMap g) n with
              | some i => if i = "" then none else some i
              | none => none), c ∈ nodeSet g := by
          intro c hc
          rcases List.mem_filterMap.mp hc with ⟨n, -, hn⟩
          cases hfn : findNodeByName (nameMap g) n with
          | none => rw [hfn] at hn; exact absurd hn (by simp)
          | some j =>
            rw [hfn] at hn
            dsimp only at hn
            by_cases hj : j = ""
            · rw [if_pos hj] at hn
              exact absurd hn (by simp)
            · rw [if_neg hj] at hn
              have := findNodeByName_nameMap_nodeSet g n j hfn
              rw [← Option.some.inj hn]
              exact this
        have htid2 : tid ∈ nodeSet g := findNodeByName_nameMap_nodeSet g targetName tid hfind
        obtain ⟨r, hr⟩ := (findOptimalPathE_error_iff g clusters _ tid hids).mpr htid2
        refine ⟨r, ?_⟩
        simp only [resolveAndFindPath, hfind, htid, if_false]
        rw [hr]

/-- C4 witness: on G1, resolved completed ids and a resolvable target
give a result, and the resolution gate yields None or a result for a
nonsense name. -/
theorem c4_unknown_concept_witness :
    ((∀ c ∈ ([] : List String), c ∈ nodeSet G1) ∧
      ((∃ r, findOptimalPathE G1 [] [] "t2" = .ok r) ↔ "t2" ∈ nodeSet G1)) ∧
    (resolveAndFindPath G1 [] [] "no such topic" = none ∨
      ∃ r, resolveAndFindPath G1 [] [] "no such topic" = some (.ok r)) :=
  ⟨⟨by simp, (c4_unknown_concept G1 []).1 [] "t2" (by simp)⟩,
   (c4_unknown_concept G1 []).2 [] "no such topic"⟩

theorem findOptimalPathE_of_some_nil (g : Graph) (clusters : List (ℤ × List String))
    (completed : List String) (target : String) (bd : ℕ) (h : target ∉ completed)
    (hdl : directLoop g target completed none = .ok (some ([], bd))) :
    findOptimalPathE g clusters completed target = fallbackPath g clusters completed target := by
  simp [findOptimalPathE, h, hdl]

theorem fallbackPath_shape (g : Graph) (clusters : List (ℤ × List String))
    (completed : List String) (target : String) (ht : target ∈ nodeSet g) :
    ∃ r, fallbackPath g clusters completed target = .ok r ∧
      (r.reason = "prerequisite_chain" ∨ r.reason = "cluster_based") ∧
      r.distance = some (r.path.length : ℚ) := by
  have hqn : ∀ x ∈ [target], x ∈ nodeSet g := by
    intro x hx
    simp only [List.mem_singleton] at hx
    rw [hx]
    exact ht
  obtain ⟨miss, hmiss⟩ := findMissingAux_ok g completed (g.edges.length + 2)
    [target] completed [] hqn
  have hmp := findMissingPrereqs_eq g completed target miss hmiss
  by_cases hne : sortLE (fun a b => distLEb (distToTarget g a target)
      (distToTarget g b target)) miss = []
  · rw [hne] at hmp
    exact ⟨_, fallbackPath_eq_cluster g clusters completed target hmp, Or.inr rfl, rfl⟩
  · exact ⟨_, fallbackPath_eq_prereq g clusters completed target _ hmp hne, Or.inl rfl, rfl⟩

/-! ### C10 — empty completed set never gives direct_path or already_completed -/

/-- C10: with an empty completed set the direct search iterates over no
starting points and the already-completed test cannot fire, so for every
resolvable target the result reason is prerequisite_chain or
cluster_based, never direct_path or already_completed. -/
theorem c10_empty_completed_reasons (g : Graph) (clusters : List (ℤ × List String))
    (target : String) (ht : target ∈ nodeSet g) :
    ∃ r, findOptimalPathE g clusters [] target = .ok r ∧
      (r.reason = "prerequisite_chain" ∨ r.reason = "cluster_based") ∧
      r.reason ≠ "direct_path" ∧ r.reason ≠ "already_completed" := by
  have hmem : target ∉ ([] : List String) := List.not_mem_nil target
  have hdl : directLoop g target [] none = .ok none := rfl
  rw [findOptimalPathE_of_none g clusters [] target hmem hdl]
  obtain ⟨r, hr, hreason, -⟩ := fallbackPath_shape g clusters [] target ht
  refine ⟨r, hr, hreason, ?_, ?_⟩
  · rcases hreason with h | h <;> rw [h] <;> decide
  · rcases hreason with h | h <;> rw [h] <;> decide

/-- C10 witness: on G1 with nothing completed, the result for t2 is the
prerequisite chain, and the general theorem applies. -/
theorem c10_empty_completed_reasons_witness :
    "t2" ∈ nodeSet G1 ∧
    findOptimalPathE G1 [] [] "t2" =
      .ok ⟨["t1"], some ((1 : ℕ) : ℚ), "prerequisite_chain"⟩ ∧
    (∃ r, findOptimalPathE G1 [] [] "t2" = .ok r ∧
      (r.reason = "prerequisite_chain" ∨ r.reason = "cluster_based") ∧
      r.reason ≠ "direct_path" ∧ r.reason ≠ "already_completed") :=
  ⟨by decide, rfl, c10_empty_completed_reasons G1 [] "t2" (by decide)⟩

/-! ### C7 — components of every result -/

/-- C7, counterexample: the result for an already-completed target
carries no numeric cost or distance component at all — its distance
entry is absent — refuting the claim that every result, in particular
this one, contains all three components. -/
theorem c7_counterexample :
    findOptimalPathE G1 [] ["t1"] "t1" = .ok ⟨[], none, "already_completed"⟩ ∧
    (∃ r, findOptimalPathE G1 [] ["t1"] "t1" = .ok r ∧ r.distance = none) :=
  ⟨rfl, ⟨⟨[], none, "already_completed"⟩, rfl, rfl⟩⟩

/-- C7 (amended): every result carries the ordered id list and a reason
drawn from the four tags, and carries a numeric cost/distance exactly
when the reason is not already_completed; when the target is already
completed the result is the empty path with reason already_completed and
no distance entry. -/
theorem c7_result_components (g : Graph) (clusters : List (ℤ × List String))
    (completed : List String) (target : String)
    (hsub : ∀ c ∈ completed, c ∈ nodeSet g) (ht : target ∈ nodeSet g) :
    ∃ r, findOptimalPathE g clusters completed target = .ok r ∧
      r.reason ∈ ["already_completed", "direct_path", "prerequisite_chain", "cluster_based"] ∧
      (r.distance = none ↔ r.reason = "already_completed") ∧
      (target ∈ completed → r = ⟨[], none, "already_completed"⟩) := by
  by_cases hmem : target ∈ completed
  · exact ⟨⟨[], none, "already_completed"⟩,
      findOptimalPathE_already g clusters completed target hmem,
      by simp, by simp, fun _ => rfl⟩
  · obtain ⟨b, hb⟩ := directLoop_ok g target completed none hsub ht
    have hfb : ∀ heq : findOptimalPathE g clusters completed target =
        fallbackPath g clusters completed target,
        ∃ r, findOptimalPathE g clusters completed target = .ok r ∧
          r.reason ∈ ["already_completed", "direct_path", "prerequisite_chain",
            "cluster_based"] ∧
          (r.distance = none ↔ r.reason = "already_completed") ∧
          (target ∈ completed → r = ⟨[], none, "already_completed"⟩) := by
      intro heq
      obtain ⟨r, hr, hreason, hdist⟩ := fallbackPath_shape g clusters completed target ht
      refine ⟨r, by rw [heq, hr], ?_, ?_, fun hc => absurd hc hmem⟩
      · rcases hreason with h | h <;> rw [h] <;> decide
      · rw [hdist]
        rcases hreason with h | h <;> rw [h] <;> simp
    cases b with
    | none => exact hfb (findOptimalPathE_of_none g clusters completed target hmem hb)
    | some x =>
      match x with
      | (bp, bd) =>
        by_cases hbp : bp = []
        · subst hbp
          exact hfb (findOptimalPathE_of_some_nil g clusters completed target bd hmem hb)
        · refine ⟨⟨bp, some ((bd : ℚ) / 10), "direct_path"⟩,
            findOptimalPathE_of_some g clusters completed target bp bd hmem hb hbp,
            by simp, by simp, fun hc => absurd hc hmem⟩

/-- C7 witness: the amended component statement at G1 with an empty
completed set and target t2. -/
theorem c7_result_components_witness :
    (∀ c ∈ ([] : List String), c ∈ nodeSet G1) ∧ "t2" ∈ nodeSet G1 ∧
    (∃ r, findOptimalPathE G1 [] [] "t2" = .ok r ∧
      r.reason ∈ ["already_completed", "direct_path", "prerequisite_chain", "cluster_based"] ∧
      (r.distance = none ↔ r.reason = "already_completed") ∧
      ("t2" ∈ ([] : List String) → r = ⟨[], none, "already_completed"⟩)) :=
  ⟨by simp, by decide, c7_result_components G1 [] [] "t2" (by simp) (by decide)⟩

/-! ### C1 — the prerequisite-chain fallback -/

/-- C1: when no weighted directed path exists from any completed node to
the target, find_optimal_learning_path returns the nodes collected by
the backward breadth-first traversal from the target over incoming
prerequisite/sequence edges — every one of them outside the completed
set — ordered by forward weighted distance to the target ascending, the
stable sort keeping traversal discovery order on ties, with reason
prerequisite_chain; the collection must be nonempty, else the cluster
fallback takes over. -/
theorem c1_prerequisite_chain (g : Graph) (clusters : List (ℤ × List String))
    (completed : List String) (target : String)
    (hnone : ∀ c ∈ completed, minPath g c target = none)
    (hmem : target ∉ completed)
    (hsub : ∀ c ∈ completed, c ∈ nodeSet g)
    (ht : target ∈ nodeSet g) :
    ∃ miss,
      findMissingAux g completed (g.edges.length + 2) [target] completed [] = .ok miss ∧
      (∀ x ∈ miss, x ∉ completed) ∧
      List.Perm (sortLE (fun a b => distLEb (distToTarget g a target)
        (distToTarget g b target)) miss) miss ∧
      (sortLE (fun a b => distLEb (distToTarget g a target)
        (distToTarget g b target)) miss).Pairwise
        (fun a b => distLEb (distToTarget g a target) (distToTarget g b target) = true) ∧
      (miss ≠ [] →
        findOptimalPathE g clusters completed target =
          .ok ⟨sortLE (fun a b => distLEb (distToTarget g a target)
              (distToTarget g b target)) miss,
            some ((sortLE (fun a b => distLEb (distToTarget g a target)
              (distToTarget g b target)) miss).length : ℚ),
            "prerequisite_chain"⟩) := by
  have hqn : ∀ x ∈ [target], x ∈ nodeSet g := by
    intro x hx
    simp only [List.mem_singleton] at hx
    rw [hx]
    exact ht
  obtain ⟨miss, hmiss⟩ := findMissingAux_ok g completed (g.edges.length + 2)
    [target] completed [] hqn
  refine ⟨miss, hmiss,
    findMissingAux_not_completed g completed _ [target] completed [] miss
      (by intro x hx; exact absurd hx (List.not_mem_nil x)) hmiss,
    sortLE_perm _ miss,
    sortLE_sorted (fun a b => distLEb (distToTarget g a target) (distToTarget g b target))
      (fun x y => distLEb_total (distToTarget g x target) (distToTarget g y target))
      (fun x y z h1 h2 => distLEb_trans (distToTarget g x target)
        (distToTarget g y target) (distToTarget g z target) h1 h2) miss,
    ?_⟩
  intro hne
  have hdl := directLoop_all_none g target completed none hnone hsub ht
  rw [findOptimalPathE_of_none g clusters completed target hmem hdl]
  have hmp := findMissingPrereqs_eq g completed target miss hmiss
  have hsne : sortLE (fun a b => distLEb (distToTarget g a target)
      (distToTarget g b target)) miss ≠ [] := by
    intro hs
    have hlen := sortLE_length (fun a b => distLEb (distToTarget g a target)
      (distToTarget g b target)) miss
    rw [hs] at hlen
    exact hne (List.eq_nil_of_length_eq_zero hlen.symm)
  exact fallbackPath_eq_prereq g clusters completed target _ hmp hsne

/-- C1 witness: the concrete spec scenario — one prerequisite edge
t1 -> t2 and an empty completed set — where find_path returns path [t1]
with reason prerequisite_chain, together with the general theorem
discharged at that instance. -/
theorem c1_prerequisite_chain_witness :
    (∀ c ∈ ([] : List String), minPath G1 c "t2" = none) ∧
    "t2" ∉ ([] : List String) ∧
    (∀ c ∈ ([] : List String), c ∈ nodeSet G1) ∧
    "t2" ∈ nodeSet G1 ∧
    findOptimalPathE G1 [] [] "t2" =
      .ok ⟨["t1"], some ((1 : ℕ) : ℚ), "prerequisite_chain"⟩ ∧
    (∃ miss,
      findMissingAux G1 [] (G1.edges.length + 2) ["t2"] [] [] = .ok miss ∧
      (∀ x ∈ miss, x ∉ ([] : List String)) ∧
      List.Perm (sortLE (fun a b => distLEb (distToTarget G1 a "t2")
        (distToTarget G1 b "t2")) miss) miss ∧
      (sortLE (fun a b => distLEb (distToTarget G1 a "t2")
        (distToTarget G1 b "t2")) miss).Pairwise
        (fun a b => distLEb (distToTarget G1 a "t2") (distToTarget G1 b "t2") = true) ∧
      (miss ≠ [] →
        findOptimalPathE G1 [] [] "t2" =
          .ok ⟨sortLE (fun a b => distLEb (distToTarget G1 a "t2")
              (distToTarget G1 b "t2")) miss,
            some ((sortLE (fun a b => distLEb (distToTarget G1 a "t2")
              (distToTarget G1 b "t2")) miss).length : ℚ),
            "prerequisite_chain"⟩)) :=
  ⟨by simp, by simp, by simp, by decide, rfl,
   c1_prerequisite_chain G1 [] [] "t2" (by simp) (by simp) (by simp) (by decide)⟩

/-! ### C6 — the cluster fallback -/

theorem findClusterBasedPath_spec (g : Graph) (clusters : List (ℤ × List String))
    (completed : List String) (target : String) :
    (findClusterBasedPath g clusters completed target).length ≤ 3 ∧
    (findClusterBasedPath g clusters completed target).Pairwise
      (fun a b => getTopicComplexity g a ≤ getTopicComplexity g b) ∧
    ∀ x ∈ findClusterBasedPath g clusters completed target,
      x ∉ completed ∧ x ≠ target ∧
      ∀ cl, clusters.find? (fun c => c.2.contains target) = some cl → x ∈ cl.2 := by
  unfold findClusterBasedPath
  cases hfc : clusters.find? (fun c => c.2.contains target) with
  | none => simp
  | some cl =>
    have htot : ∀ x y : String,
        (decide (getTopicComplexity g x ≤ getTopicComplexity g y) ||
          decide (getTopicComplexity g y ≤ getTopicComplexity g x)) = true := by
      intro x y
      rcases Nat.le_total (getTopicComplexity g x) (getTopicComplexity g y) with h | h <;>
        simp [h]
    have htr : ∀ x y z : String,
        decide (getTopicComplexity g x ≤ getTopicComplexity g y) = true →
        decide (getTopicComplexity g y ≤ getTopicComplexity g z) = true →
        decide (getTopicComplexity g x ≤ getTopicComplexity g z) = true := by
      intro x y z h1 h2
      simp only [decide_eq_true_eq] at h1 h2 ⊢
      omega
    refine ⟨List.length_take_le 3 _, ?_, ?_⟩
    · refine List.Pairwise.sublist (List.take_sublist 3 _) ?_
      have hs := sortLE_sorted
        (fun a b => decide (getTopicComplexity g a ≤ getTopicComplexity g b)) htot htr
        (cl.2.filter (fun t => !(completed.contains t) && t != target))
      exact hs.imp (fun h => of_decide_eq_true h)
    · intro x hx
      have hx2 := (List.take_sublist 3 _).subset hx
      have hx3 := (mem_sortLE _ x _).mp hx2
      obtain ⟨hxc, hpred⟩ := List.mem_filter.mp hx3
      simp only [Bool.and_eq_true, Bool.not_eq_true, bne_iff_ne, ne_eq] at hpred
      refine ⟨?_, hpred.2, ?_⟩
      · have hnc : x ∉ completed := by simpa using hpred.1
        exact hnc
      · intro cl2 hcl2
        have heq : cl = cl2 := Option.some.inj hcl2
        rw [← heq]
        exact hxc

/-- C6: when the direct search and the prerequisite backward search both
yield nothing, find_optimal_learning_path returns the cluster fallback
with reason cluster_based: at most three topics, all members of the
cluster holding the target, never the target itself nor a completed
topic, in ascending order of the complexity score
subtopic_count + 2 * prerequisite_count. -/
theorem c6_cluster_fallback (g : Graph) (clusters : List (ℤ × List String))
    (completed : List String) (target : String)
    (hnone : ∀ c ∈ completed, minPath g c target = none)
    (hmem : target ∉ completed)
    (hsub : ∀ c ∈ completed, c ∈ nodeSet g)
    (ht : target ∈ nodeSet g)
    (hempty : findMissingPrereqs g completed target = .ok []) :
    findOptimalPathE g clusters completed target =
      .ok ⟨findClusterBasedPath g clusters completed target,
        some ((findClusterBasedPath g clusters completed target).length : ℚ),
        "cluster_based"⟩ ∧
    (findClusterBasedPath g clusters completed target).length ≤ 3 ∧
    (findClusterBasedPath g clusters completed target).Pairwise
      (fun a b => getTopicComplexity g a ≤ getTopicComplexity g b) ∧
    ∀ x ∈ findClusterBasedPath g clusters completed target,
      x ∉ completed ∧ x ≠ target ∧
      ∀ cl, clusters.find? (fun c => c.2.contains target) = some cl → x ∈ cl.2 := by
  obtain ⟨h1, h2, h3⟩ := findClusterBasedPath_spec g clusters completed target
  refine ⟨?_, h1, h2, h3⟩
  rw [findOptimalPathE_of_none g clusters completed target hmem
    (directLoop_all_none g target completed none hnone hsub ht)]
  exact fallbackPath_eq_cluster g clusters completed target hempty

/-- C6 witness: in G6 with the cluster table CL6, an empty completed set
and target t2: the direct and prerequisite searches are empty and the
result is the single same-cluster topic t3 with reason cluster_based. -/
theorem c6_cluster_fallback_witness :
    (∀ c ∈ ([] : List String), minPath G6 c "t2" = none) ∧
    "t2" ∉ ([] : List String) ∧
    (∀ c ∈ ([] : List String), c ∈ nodeSet G6) ∧
    "t2" ∈ nodeSet G6 ∧
    findMissingPrereqs G6 [] "t2" = .ok [] ∧
    findOptimalPathE G6 CL6 [] "t2" = .ok ⟨["t3"], some ((1 : ℕ) : ℚ), "cluster_based"⟩ ∧
    (findOptimalPathE G6 CL6 [] "t2" =
      .ok ⟨findClusterBasedPath G6 CL6 [] "t2",
        some ((findClusterBasedPath G6 CL6 [] "t2").length : ℚ), "cluster_based"⟩ ∧
    (findClusterBasedPath G6 CL6 [] "t2").length ≤ 3 ∧
    (findClusterBasedPath G6 CL6 [] "t2").Pairwise
      (fun a b => getTopicComplexity G6 a ≤ getTopicComplexity G6 b) ∧
    ∀ x ∈ findClusterBasedPath G6 CL6 [] "t2",
      x ∉ ([] : List String) ∧ x ≠ "t2" ∧
      ∀ cl, CL6.find? (fun c => c.2.contains "t2") = some cl → x ∈ cl.2) :=
  ⟨by simp, by simp, by simp, by decide, rfl, rfl,
   c6_cluster_fallback G6 CL6 [] "t2" (by simp) (by simp) (by simp) (by decide) rfl⟩

/-! ### C2 — path monotonicity -/

/-- C2, counterexample: in G2 the empty completed set (a subset of the
set containing x alone) gets the prerequisite-chain distance 1, while
knowing x yields the direct weighted distance 2.4 — more prior knowledge
increased the returned cost, because the fallback branches measure
distance as a node count while the direct branch sums edge weights. -/
theorem c2_counterexample :
    (∀ x ∈ ([] : List String), x ∈ (["x"] : List String)) ∧
    findOptimalPathE G2 [] [] "t" =
      .ok ⟨["p"], some ((1 : ℕ) : ℚ), "prerequisite_chain"⟩ ∧
    findOptimalPathE G2 [] ["x"] "t" =
      .ok ⟨["u", "v", "t"], some (((24 : ℕ) : ℚ) / 10), "direct_path"⟩ ∧
    ¬(((24 : ℕ) : ℚ) / 10 ≤ ((1 : ℕ) : ℚ)) :=
  ⟨by simp, rfl, rfl, by norm_num⟩

theorem fallbackPath_not_direct (g : Graph) (clusters : List (ℤ × List String))
    (completed : List String) (target : String) (r : PathResult)
    (h : fallbackPath g clusters completed target = .ok r) : r.reason ≠ "direct_path" := by
  cases hmp : findMissingPrereqs g completed target with
  | error e =>
    rw [fallbackPath, hmp] at h
    exact absurd h (by simp [Bind.bind, Except.bind])
  | ok sorted =>
    by_cases hne : sorted = []
    · subst hne
      rw [fallbackPath_eq_cluster g clusters completed target hmp] at h
      rw [← Except.ok.inj h]
      show ("cluster_based" : String) ≠ "direct_path"
      decide
    · rw [fallbackPath_eq_prereq g clusters completed target sorted hmp hne] at h
      rw [← Except.ok.inj h]
      show ("prerequisite_chain" : String) ≠ "direct_path"
      decide

theorem findOptimalPathE_direct_inv (g : Graph) (clusters : List (ℤ × List String))
    (completed : List String) (target : String) (r : PathResult)
    (hmem : target ∉ completed)
    (h : findOptimalPathE g clusters completed target = .ok r)
    (hreason : r.reason = "direct_path") :
    ∃ bp bd, directLoop g target completed none = .ok (some (bp, bd)) ∧ bp ≠ [] ∧
      r = ⟨bp, some ((bd : ℚ) / 10), "direct_path"⟩ := by
  cases hdl : directLoop g target completed none with
  | error e =>
    simp [findOptimalPathE, hmem, hdl] at h
  | ok b =>
    cases b with
    | none =>
      rw [findOptimalPathE_of_none g clusters completed target hmem hdl] at h
      exact absurd hreason (fallbackPath_not_direct g clusters completed target r h)
    | some x =>
      match x with
      | (bp, bd) =>
        by_cases hbp : bp = []
        · subst hbp
          rw [findOptimalPathE_of_some_nil g clusters completed target bd hmem hdl] at h
          exact absurd hreason (fallbackPath_not_direct g clusters completed target r h)
        · rw [findOptimalPathE_of_some g clusters completed target bp bd hmem hdl hbp] at h
          exact ⟨bp, bd, rfl, hbp, (Except.ok.inj h).symm⟩

/-- C2 (amended): the monotonicity the claim states fails in general
(c2_counterexample), and the fragment forced to remain is monotonicity
within the direct-path branch: for completed sets A contained in B, if
the search from A finds a direct path then the search from B also
returns a direct path, of cost at most that of A, since the minimum runs
over more starting points. -/
theorem c2_monotonicity_direct (g : Graph) (clusters : List (ℤ × List String))
    (A B : List String) (target : String) (rA : PathResult)
    (hAB : ∀ x ∈ A, x ∈ B)
    (hB : ∀ c ∈ B, c ∈ nodeSet g)
    (htB : target ∉ B)
    (ht : target ∈ nodeSet g)
    (hA : findOptimalPathE g clusters A target = .ok rA)
    (hreason : rA.reason = "direct_path") :
    ∃ rB dA dB, findOptimalPathE g clusters B target = .ok rB ∧
      rB.reason = "direct_path" ∧ rA.distance = some dA ∧ rB.distance = some dB ∧
      dB ≤ dA := by
  have htA : target ∉ A := fun hc => htB (hAB target hc)
  obtain ⟨bpA, bdA, hdlA, hbpA, hrA⟩ :=
    findOptimalPathE_direct_inv g clusters A target rA htA hA hreason
  rcases directLoop_achieved g target A none bpA bdA hdlA with hacc | ⟨cA, hcA, pA, hpA, hbpA2⟩
  · exact absurd hacc (by simp)
  obtain ⟨b, hb⟩ := directLoop_ok g target B none hB ht
  obtain ⟨y, hy⟩ := directLoop_found_some g target B none cA pA bdA b (hAB cA hcA) hpA hb
  subst hy
  match y, hb with
  | (bpB, bdB), hb =>
    have hle : bdB ≤ bdA :=
      directLoop_le_found g target B none cA pA bdA bpB bdB (hAB cA hcA) hpA hb
    rcases directLoop_achieved g target B none bpB bdB hb with hacc | ⟨cB, hcB, pB, hpB, hbpB2⟩
    · exact absurd hacc (by simp)
    have hcBne : cB ≠ target := fun hc => htB (hc ▸ hcB)
    obtain ⟨hpBmem, -⟩ := minPath_mem g cB target pB bdB hpB
    have hbpBne : bpB ≠ [] := by
      rw [hbpB2]
      exact simplePaths_drop_ne_nil g _ cB target [] pB hpBmem hcBne
    refine ⟨⟨bpB, some ((bdB : ℚ) / 10), "direct_path"⟩, (bdA : ℚ) / 10, (bdB : ℚ) / 10,
      findOptimalPathE_of_some g clusters B target bpB bdB htB hb hbpBne,
      rfl, by rw [hrA], rfl, ?_⟩
    have hcast : (bdB : ℚ) ≤ (bdA : ℚ) := Nat.cast_le.mpr hle
    gcongr

/-- C2 witness: in G2, A = [u] is contained in B = [u, x]; both give the
direct path v, t of weighted distance 1.6, so the cost for B is at most
the cost for A. -/
theorem c2_monotonicity_direct_witness :
    (∀ x ∈ (["u"] : List String), x ∈ (["u", "x"] : List String)) ∧
    (∀ c ∈ (["u", "x"] : List String), c ∈ nodeSet G2) ∧
    "t" ∉ (["u", "x"] : List String) ∧
    "t" ∈ nodeSet G2 ∧
    findOptimalPathE G2 [] ["u"] "t" =
      .ok ⟨["v", "t"], some (((16 : ℕ) : ℚ) / 10), "direct_path"⟩ ∧
    (∃ rB dA dB, findOptimalPathE G2 [] ["u", "x"] "t" = .ok rB ∧
      rB.reason = "direct_path" ∧
      (PathResult.mk ["v", "t"] (some (((16 : ℕ) : ℚ) / 10)) "direct_path").distance =
        some dA ∧
      rB.distance = some dB ∧ dB ≤ dA) :=
  ⟨by simp, by decide, by decide, by decide, rfl,
   c2_monotonicity_direct G2 [] ["u"] ["u", "x"] "t"
     ⟨["v", "t"], some (((16 : ℕ) : ℚ) / 10), "direct_path"⟩
     (by simp) (by decide) (by decide) (by decide) rfl rfl⟩

/-! ### C5 — completion percentage -/

/-- C5: for a duplicate-free completed set and a resolvable target
topic, the completion percentage lies between 0 and 100 and equals
exactly 100 times the size of the intersection of the completed set with
the target subtopic set, divided by the size of the target subtopic set,
and 0 when that set is empty. -/
theorem c5_completion_percentage (g : Graph) (completed : List String) (tid : String)
    (hnodup : completed.Nodup) (htid : tid ∈ nodeIds g) :
    ∃ r, analyzeSubtopicGapsE g completed tid = .ok r ∧
      0 ≤ r.completionPercentage ∧ r.completionPercentage ≤ 100 ∧
      r.completionPercentage =
        (if r.targetSubtopics = [] then 0 else
          100 * ((completed.toFinset ∩ r.targetSubtopics.toFinset).card : ℚ) /
            (r.targetSubtopics.toFinset.card : ℚ)) := by
  have htsnd : (getAllSubtopicsForTopic g tid).Nodup :=
    List.Nodup.filter _ (succs_nodup g tid)
  have hres : analyzeSubtopicGapsE g completed tid =
      .ok ⟨getAllSubtopicsForTopic g tid,
        completed.filter (fun s => (getAllSubtopicsForTopic g tid).contains s),
        (getAllSubtopicsForTopic g tid).filter (fun s => !(completed.contains s)),
        if getAllSubtopicsForTopic g tid = [] then 0 else
          ((completed.filter
            (fun s => (getAllSubtopicsForTopic g tid).contains s)).length : ℚ) /
            ((getAllSubtopicsForTopic g tid).length : ℚ) * 100⟩ := by
    unfold analyzeSubtopicGapsE
    rw [if_pos htid]
  have hcitnd : (completed.filter
      (fun s => (getAllSubtopicsForTopic g tid).contains s)).Nodup :=
    List.Nodup.filter _ hnodup
  have hcard : (completed.filter
      (fun s => (getAllSubtopicsForTopic g tid).contains s)).length =
      (completed.toFinset ∩ (getAllSubtopicsForTopic g tid).toFinset).card := by
    rw [← List.toFinset_card_of_nodup hcitnd]
    congr 1
    ext a
    simp [List.mem_filter, Finset.mem_inter]
  have htscard : (getAllSubtopicsForTopic g tid).toFinset.card =
      (getAllSubtopicsForTopic g tid).length := List.toFinset_card_of_nodup htsnd
  have hle : (completed.filter
      (fun s => (getAllSubtopicsForTopic g tid).contains s)).length ≤
      (getAllSubtopicsForTopic g tid).length := by
    rw [hcard, ← htscard]
    exact Finset.card_le_card Finset.inter_subset_right
  refine ⟨_, hres, ?_, ?_, ?_⟩
  · by_cases hempty : getAllSubtopicsForTopic g tid = []
    · simp only [hempty, if_pos]
      norm_num
    · simp only [hempty, if_false]
      have hpos : (0 : ℚ) < ((getAllSubtopicsForTopic g tid).length : ℚ) := by
        exact_mod_cast List.length_pos.mpr hempty
      positivity
  · by_cases hempty : getAllSubtopicsForTopic g tid = []
    · simp only [hempty, if_pos]
      norm_num
    · simp only [hempty, if_false]
      have hpos : (0 : ℚ) < ((getAllSubtopicsForTopic g tid).length : ℚ) := by
        exact_mod_cast List.length_pos.mpr hempty
      rw [div_mul_eq_mul_div, div_le_iff₀ hpos]
      have hcast : ((completed.filter
          (fun s => (getAllSubtopicsForTopic g tid).contains s)).length : ℚ) ≤
          ((getAllSubtopicsForTopic g tid).length : ℚ) := by exact_mod_cast hle
      nlinarith
  · by_cases hempty : getAllSubtopicsForTopic g tid = []
    · simp only [hempty, if_pos]
    · simp only [hempty, if_false]
      rw [← hcard, htscard]
      ring

/-- C5 witness: the spec scenario — Array (t1) with subtopics Traversal
(s1) and Sorting (s2), user completed s1 — gives completion percentage
exactly 100 times 1/2, that is 50. -/
theorem c5_completion_percentage_witness :
    (["s1"] : List String).Nodup ∧ "t1" ∈ nodeIds G5 ∧
    analyzeSubtopicGapsE G5 ["s1"] "t1" =
      .ok ⟨["s1", "s2"], ["s1"], ["s2"], ((1 : ℕ) : ℚ) / ((2 : ℕ) : ℚ) * 100⟩ ∧
    ((1 : ℕ) : ℚ) / ((2 : ℕ) : ℚ) * 100 = 50 ∧
    (∃ r, analyzeSubtopicGapsE G5 ["s1"] "t1" = .ok r ∧
      0 ≤ r.completionPercentage ∧ r.completionPercentage ≤ 100 ∧
      r.completionPercentage =
        (if r.targetSubtopics = [] then 0 else
          100 * (((["s1"] : List String).toFinset ∩ r.targetSubtopics.toFinset).card : ℚ) /
            (r.targetSubtopics.toFinset.card : ℚ))) :=
  ⟨by decide, by decide, rfl, by norm_num,
   c5_completion_percentage G5 ["s1"] "t1" (by decide) (by decide)⟩

end RealGraphAnalyzer
